import Mathlib

/-!
Verification of macewan-cache: cache-locality and false-sharing micro-benchmarks.

A shallow embedding of `itertest.c`, `sharing.c`, `sharing_fixed.c` and
`utils.c`.

Conventions of the embedding.

* A finite `double` is the rational number it denotes; every conversion, addition
  and division rounds to the nearest binary64 value, ties to even (`to_double`).
  All values of this program stay below `2^84` (`doubles_stay_finite`), so no
  operation overflows to infinity.
  Only `diff_timespec` is, besides, also read in exact rational arithmetic.
* `time_t` and `long` are 64-bit two's-complement integers: the subtractions of
  `diff_timespec` wrap (`wrap64`); `diff_defined` says that they do not overflow.
* `int` is a 32-bit two's-complement integer (`wrap32`), `sizeof(int) = 4`.
* The outside world is passed in explicitly: `rand k` is the value returned by
  the `k`-th call of `rand()`, `clock k` the timestamp stored by the `k`-th call
  of `clock_gettime(CLOCK_MONOTONIC, _)`.
* `xmalloc` hands out fresh, zero-filled storage of the number of bytes asked for
  (`calloc`), computed in 64-bit `size_t` arithmetic; the branch in which `xmalloc`
  terminates the process is not a state that any later statement observes. A
  read or write outside the block handed out is a fault (`none`).
* The worker threads of the contention benchmark are run one after the other in
  an arbitrary order (`run_threads`), and also interleaved at the level of single
  loads and stores (`run_schedule`).
-/

set_option autoImplicit false

namespace MacewanCache

/-! ## Machine integers -/

/-- Two's-complement reduction of an integer to 64 bits (`long`, `time_t`). -/
def wrap64 (x : Int) : Int := (x + 2 ^ 63) % 2 ^ 64 - 2 ^ 63

/-- Two's-complement reduction of an integer to 32 bits (`int`). -/
def wrap32 (x : Int) : Int := (x + 2 ^ 31) % 2 ^ 32 - 2 ^ 31

/-! ## Binary64 arithmetic -/

/-- Number of binary digits of `n` minus one, searched with at most `fuel` halvings. -/
def log2_aux : Nat → Nat → Nat
  | 0, _ => 0
  | fuel + 1, n => if n < 2 then 0 else log2_aux fuel (n / 2) + 1

/-- The integer part of the binary logarithm of `n` (0 for `n = 0`). -/
def log2 (n : Nat) : Nat := log2_aux n n

/-- The power `2^e` for an integer exponent. -/
def pow2 (e : Int) : ℚ :=
  if 0 ≤ e then ((2 ^ e.toNat : Nat) : ℚ) else 1 / ((2 ^ (-e).toNat : Nat) : ℚ)

/-- The integer part of the binary logarithm of a positive rational `q`: the
exponent `E` with `2^E ≤ q < 2^(E+1)`. -/
def ilog2 (q : ℚ) : Int :=
  let k : Int := (log2 q.num.natAbs : Int) - (log2 q.den : Int)
  if pow2 k ≤ q then k else k - 1

/-- Rounding of a rational to the nearest integer, ties to the even one. -/
def round_half_even (y : ℚ) : Int :=
  let f := ⌊y⌋
  let r := y - f
  if r < 1 / 2 then f else if 1 / 2 < r then f + 1 else if f % 2 = 0 then f else f + 1

/-- Rounding of a rational to the nearest binary64 value, ties to even: the
significand has 53 bits, the least exponent of the last place is `-1074`
(subnormal numbers). Rounding to infinity, which binary64 does from `2^1024` on, is
left out: the values of this program stay below `2^84` (`doubles_stay_finite`). -/
def to_double (q : ℚ) : ℚ :=
  if q = 0 then 0
  else
    let a := if 0 < q then q else -q
    let e := max (ilog2 a - 52) (-1074)
    let m := round_half_even (a / pow2 e)
    if 0 < q then (m : ℚ) * pow2 e else -((m : ℚ) * pow2 e)

/-- The sum `x + y` of two `double` values. -/
def double_add (x y : ℚ) : ℚ := to_double (x + y)

/-- The quotient `x / y` of two `double` values. -/
def double_div (x y : ℚ) : ℚ := to_double (x / y)

/-- The conversion of a `long` to `double`. -/
def double_of_long (n : Int) : ℚ := to_double (n : ℚ)

/-! ## Timing utility -/

/-- The two fields of `struct timespec` that the program reads. -/
structure timespec where
  tv_sec : Int
  tv_nsec : Int
  deriving DecidableEq, Repr

/-- The subtraction `x - y` of two `long` values is defined: its result is a
`long` (signed overflow is undefined behaviour in C). -/
def sub_defined (x y : Int) : Prop := -(2 ^ 63) ≤ x - y ∧ x - y < 2 ^ 63

instance (x y : Int) : Decidable (sub_defined x y) := by
  unfold sub_defined; infer_instance

/-- Both subtractions of `diff_timespec(time1, time0)` are defined. -/
def diff_defined (time1 time0 : timespec) : Prop :=
  sub_defined time1.tv_sec time0.tv_sec ∧ sub_defined time1.tv_nsec time0.tv_nsec

instance (t1 t0 : timespec) : Decidable (diff_defined t1 t0) := by
  unfold diff_defined; infer_instance

/-- The nanoseconds field lies in `[0, 10^9)`. -/
def timespec.nsec_ok (t : timespec) : Prop := 0 ≤ t.tv_nsec ∧ t.tv_nsec < 1000000000

instance (t : timespec) : Decidable t.nsec_ok := by
  unfold timespec.nsec_ok; infer_instance

/-- The end timestamp is not earlier than the start timestamp. -/
def timespec.not_before (t1 t0 : timespec) : Prop :=
  t0.tv_sec < t1.tv_sec ∨ (t1.tv_sec = t0.tv_sec ∧ t0.tv_nsec ≤ t1.tv_nsec)

instance (t1 t0 : timespec) : Decidable (t1.not_before t0) := by
  unfold timespec.not_before; infer_instance

namespace itertest

/-- Number of timed trials, `#define ITERS 20` of `itertest.c`. -/
def ITERS : Nat := 20

/-- The function `diff_timespec` of `itertest.c`:
`(time1->tv_sec - time0->tv_sec) + (time1->tv_nsec - time0->tv_nsec) / 1000000000.0`,
read in exact rational arithmetic. -/
def diff_timespec (time1 time0 : timespec) : ℚ :=
  (wrap64 (time1.tv_sec - time0.tv_sec) : ℚ)
    + (wrap64 (time1.tv_nsec - time0.tv_nsec) : ℚ) / 1000000000

/-- The function `diff_timespec` of `itertest.c` as the machine evaluates it: the
two `long` differences are converted to `double`, the nanoseconds are divided by
`1000000000.0`, and the two `double` values are added. -/
def diff_timespec_double (time1 time0 : timespec) : ℚ :=
  double_add (double_of_long (wrap64 (time1.tv_sec - time0.tv_sec)))
    (double_div (double_of_long (wrap64 (time1.tv_nsec - time0.tv_nsec))) 1000000000)

end itertest

namespace utils

/-- The function `diff_timespec` of `utils.c`. -/
def diff_timespec (time1 time0 : timespec) : ℚ :=
  (wrap64 (time1.tv_sec - time0.tv_sec) : ℚ)
    + (wrap64 (time1.tv_nsec - time0.tv_nsec) : ℚ) / 1000000000

end utils

/-! ## Contention benchmark (`sharing.c`, `sharing_fixed.c`) -/

/-- Size in bytes of an `int`. -/
def sizeof_int : Nat := 4

/-- Alignment in bytes of an `int`. -/
def alignof_int : Nat := 4

/-- Size in bytes of a cacheline, as the comments of `sharing_fixed.c` take it. -/
def CACHELINE : Nat := 64

/-- Index of the cacheline that holds the byte at address `addr`. -/
def cacheline (addr : Nat) : Nat := addr / CACHELINE

/-- Size of a C union: the size of its largest member, rounded up to a multiple
of the strictest member alignment. -/
def union_sizeof (member_sizes : List Nat) (align : Nat) : Nat :=
  (member_sizes.foldl max 0 + align - 1) / align * align

namespace sharing

/-- Iterations bound of a worker, `#define ITERS (1 << 29)`. -/
def ITERS : Nat := 1 <<< 29

/-- Address of `counters[i]` for `int *counters` stored at `base`. -/
def counter_addr (base i : Nat) : Nat := base + i * sizeof_int

/-- The loop `for (int j = 1; j < ITERS; j++) counters[thread_id]++;` entered
with loop variable `j`. -/
def thread_run_loop (thread_id : Nat) (j : Nat) (counters : List Int) : List Int :=
  if j < ITERS then
    thread_run_loop thread_id (j + 1)
      (counters.set thread_id (wrap32 (counters.getD thread_id 0 + 1)))
  else counters
termination_by ITERS - j

/-- The function `thread_run` of `sharing.c`, as a function of the counter
array; `none` when `thread_id` is not an index of the array. -/
def thread_run (thread_id : Nat) (counters : List Int) : Option (List Int) :=
  if thread_id < counters.length then some (thread_run_loop thread_id 1 counters)
  else none

/-- The array `counters = MALLOC(num_cpus * sizeof(int))`: zero-filled. -/
def alloc_counters (num_cpus : Nat) : List Int := List.replicate num_cpus 0

/-- The workers named in `order` run to completion one after the other. -/
def run_threads : List Nat → List Int → Option (List Int)
  | [], counters => some counters
  | t :: rest, counters => (thread_run t counters).bind (run_threads rest)

/-- The threads `0 .. num_cpus - 1` that `main` creates and joins, completing in
the order `order`, started on the freshly allocated counters. -/
def run_cohort (num_cpus : Nat) (order : List Nat) : Option (List Int) :=
  run_threads order (alloc_counters num_cpus)

/-! ### Interleaved execution of the workers of `sharing.c` -/

/-- A worker thread inside `thread_run`: the loop variable `j`, and the value of
`counters[thread_id]` it has loaded when it is in the middle of the statement
`counters[thread_id]++` (`none` between two statements). -/
structure worker where
  j : Nat
  reg : Option Int
  deriving DecidableEq, Repr

/-- The shared counters and the workers `0 .. K - 1`. -/
structure cohort where
  counters : List Int
  workers : List worker

/-- The cohort when all `num_cpus` workers enter their loop (`j = 1`). -/
def cohort_init (num_cpus : Nat) : cohort :=
  { counters := alloc_counters num_cpus, workers := List.replicate num_cpus ⟨1, none⟩ }

/-- Worker `t` makes one move: it tests `j < ITERS` and loads `counters[t]`; or,
having loaded, it stores the incremented value and increments `j`; a worker that
has left its loop does nothing. -/
def step (t : Nat) (s : cohort) : cohort :=
  match s.workers[t]? with
  | none => s
  | some w =>
    match w.reg with
    | none =>
      if w.j < ITERS then
        { s with workers := s.workers.set t ⟨w.j, some (s.counters.getD t 0)⟩ }
      else s
    | some v =>
      { counters := s.counters.set t (wrap32 (v + 1)),
        workers := s.workers.set t ⟨w.j + 1, none⟩ }

/-- The workers move in the order given by the schedule. -/
def run_schedule : List Nat → cohort → cohort
  | [], s => s
  | t :: rest, s => run_schedule rest (step t s)

/-- Invariant of the interleaved execution from `cohort_init`: worker `t` has
incremented counter `t` exactly `j - 1` times, and a loaded value is the current
value of the worker's own counter. -/
def cohort_inv (s : cohort) : Prop :=
  s.counters.length = s.workers.length ∧
  ∀ (t : Nat) (w : worker), s.workers[t]? = some w →
    1 ≤ w.j ∧ w.j ≤ ITERS ∧ s.counters[t]? = some ((w.j : Int) - 1) ∧
    (∀ v, w.reg = some v → v = (w.j : Int) - 1 ∧ w.j < ITERS)

end sharing

namespace sharing_fixed

/-- Iterations bound of a worker, `#define ITERS (1 << 29)`. -/
def ITERS : Nat := 1 <<< 29

/-- The record `union padded_int { int val; char padding[64]; }`, of which the
program reads and writes the member `val` only. -/
structure padded_int where
  val : Int
  deriving DecidableEq, Repr

/-- The value `sizeof(union padded_int)`. -/
def sizeof_padded_int : Nat := union_sizeof [sizeof_int, 64] alignof_int

/-- Address of `counters[i].val` for `union padded_int *counters` stored at
`base`; the member `val` sits at offset 0 of its record. -/
def counter_addr (base i : Nat) : Nat := base + i * sizeof_padded_int

/-- The loop `for (int j = 1; j < ITERS; j++) counters[thread_id].val++;` entered
with loop variable `j`. -/
def thread_run_loop (thread_id : Nat) (j : Nat) (counters : List padded_int) :
    List padded_int :=
  if j < ITERS then
    thread_run_loop thread_id (j + 1)
      (counters.set thread_id ⟨wrap32 ((counters.getD thread_id ⟨0⟩).val + 1)⟩)
  else counters
termination_by ITERS - j

/-- The function `thread_run` of `sharing_fixed.c`; `none` when `thread_id` is
not an index of the array. -/
def thread_run (thread_id : Nat) (counters : List padded_int) :
    Option (List padded_int) :=
  if thread_id < counters.length then some (thread_run_loop thread_id 1 counters)
  else none

/-- The array `counters = MALLOC(num_cpus * sizeof(union padded_int))`. -/
def alloc_counters (num_cpus : Nat) : List padded_int := List.replicate num_cpus ⟨0⟩

/-- The workers named in `order` run to completion one after the other. -/
def run_threads : List Nat → List padded_int → Option (List padded_int)
  | [], counters => some counters
  | t :: rest, counters => (thread_run t counters).bind (run_threads rest)

/-- The threads `0 .. num_cpus - 1` that `main` creates and joins, completing in
the order `order`, started on the freshly allocated counters. -/
def run_cohort (num_cpus : Nat) (order : List Nat) : Option (List padded_int) :=
  run_threads order (alloc_counters num_cpus)

end sharing_fixed

/-! ## Locality benchmark (`itertest.c`) -/

namespace itertest

/-- Number of nodes kept ready in the pool, `#define POOLSIZE 32`. -/
def POOLSIZE : Nat := 32

/-- The loop `for (i = 0; i < ITERS; i++) { ret += results[i]; }` started from
`ret = 0.0`: the value of `ret` after the first `n` iterations. -/
def sum_results (results : List ℚ) : Nat → ℚ
  | 0 => 0
  | n + 1 => double_add (sum_results results n) (results.getD n 0)

/-- The closing statements `ret = ret/ITERS; return ret;` after the summing loop. -/
def average (results : List ℚ) : ℚ :=
  double_div (sum_results results ITERS) (ITERS : ℚ)

/-! ### Array mode -/

/-- Number of `int` cells of the block that `XMALLOC(size * sizeof(int))` hands
out: the byte count is computed in 64-bit `size_t` arithmetic. -/
def array_cells (size : Nat) : Nat := (size * sizeof_int % 2 ^ 64) / sizeof_int

/-- The loop `for (i = 0; i < size; i++) { a[i] = j; }` entered with index `i`;
`none` when it writes outside the block `a`. -/
def array_fill (size : Nat) (j : Int) (i : Nat) (a : List Int) : Option (List Int) :=
  if i < size then
    if i < a.length then array_fill size j (i + 1) (a.set i j) else none
  else some a
termination_by size - i

/-- Local state of `doit_array` that the trials change: the array `a` and the
array `results`. -/
structure array_state where
  a : List Int
  results : List ℚ

/-- State of `doit_array` when the trial loop is entered: `a` is the zero-filled
block that `XMALLOC(size * sizeof(int))` returns, `results` holds `ITERS` cells
(not yet written, taken as `0`). -/
def array_init (size : Nat) : array_state :=
  { a := List.replicate (array_cells size) 0, results := List.replicate ITERS 0 }

/-- One iteration, for trial index `j`, of the trial loop of `doit_array`; the two
calls of `clock_gettime` are the calls number `2 * j` and `2 * j + 1`. -/
def array_trial (size : Nat) (clock : Nat → timespec) (j : Nat) (s : array_state) :
    Option array_state :=
  let begin_ := clock (2 * j)
  (array_fill size (wrap32 j) 0 s.a).map fun a1 =>
    let end_ := clock (2 * j + 1)
    { a := a1, results := s.results.set j (diff_timespec_double end_ begin_) }

/-- State of `doit_array` after the first `n` iterations of the trial loop
`for (int j = 0; j < ITERS; j++)`. -/
def array_trials (size : Nat) (clock : Nat → timespec) : Nat → Option array_state
  | 0 => some (array_init size)
  | n + 1 => (array_trials size clock n).bind (array_trial size clock n)

/-- The function `doit_array` of `itertest.c`; `none` when it writes outside the
block it allocated. -/
def doit_array (size : Nat) (clock : Nat → timespec) : Option ℚ :=
  (array_trials size clock ITERS).map fun s => average s.results

/-! ### List mode -/

/-- A `struct node`: the pointer `val` and the pointer `next`, `none` for `NULL`. -/
structure node where
  val : Option Nat
  next : Option Nat
  deriving DecidableEq, Repr

/-- The heap: `brk` is the first address never handed out, `nodes a` the
`struct node` stored at `a` and `ints a` the `int` stored at `a`, `none` where
no such object is allocated. -/
structure heap where
  brk : Nat
  nodes : Nat → Option node
  ints : Nat → Option Int

/-- The heap before the first allocation. -/
def heap.empty : heap := { brk := 0, nodes := fun _ => none, ints := fun _ => none }

/-- The call `XMALLOC(sizeof(struct node))`: a fresh zero-filled node. -/
def xmalloc_node (h : heap) : Nat × heap :=
  (h.brk, { h with brk := h.brk + 1,
                   nodes := Function.update h.nodes h.brk (some ⟨none, none⟩) })

/-- The call `XMALLOC(sizeof(int))`: a fresh zero-filled `int`. -/
def xmalloc_int (h : heap) : Nat × heap :=
  (h.brk, { h with brk := h.brk + 1, ints := Function.update h.ints h.brk (some 0) })

/-- Local state of `doit_list` while the list is built. -/
structure list_state where
  mem : heap
  node_pool : List Nat
  head : Option Nat

/-- The loop `for (i = 0; i < POOLSIZE; i++) node_pool[i] = XMALLOC(...)`: the
state after its first `n` iterations (the cells of `node_pool` not yet written
are taken as `0`). -/
def pool_init : Nat → heap × List Nat
  | 0 => (heap.empty, List.replicate POOLSIZE 0)
  | n + 1 =>
    let (h, pool) := pool_init n
    let (p, h1) := xmalloc_node h
    (h1, pool.set n p)

/-- State of `doit_list` when the build loop is entered (`head = NULL`). -/
def build_init : list_state :=
  { mem := (pool_init POOLSIZE).1, node_pool := (pool_init POOLSIZE).2, head := none }

/-- One iteration of the build loop; `r` is the value that `rand()` returns.
`none` when a pointer that is dereferenced does not point to a node. -/
def build_step (r : Nat) (s : list_state) : Option list_state :=
  let chosen := r % POOLSIZE
  match s.node_pool[chosen]? with
  | none => none
  | some n =>
    match s.mem.nodes n with
    | none => none
    | some _ =>
      let (v, h1) := xmalloc_int s.mem
      let h2 := { h1 with nodes := Function.update h1.nodes n (some ⟨some v, s.head⟩) }
      let (m, h3) := xmalloc_node h2
      some { mem := h3, node_pool := s.node_pool.set chosen m, head := some n }

/-- State of `doit_list` after the first `n` iterations of the build loop
`for (i = 0; i < size; i++)`; `rand i` is the value of the `i`-th call of `rand()`. -/
def build (rand : Nat → Nat) : Nat → Option list_state
  | 0 => some build_init
  | n + 1 => (build rand n).bind (build_step (rand n))

/-- The loop `while (curr != NULL) { *curr->val = i; curr = curr->next; }` run
for at most `fuel` iterations. It returns the heap together with the nodes
visited, in order; `none` when a dereferenced pointer is not valid or the fuel is
used up before `curr` is `NULL`. -/
def list_fill (i : Int) : Nat → Option Nat → heap → Option (heap × List Nat)
  | _, none, h => some (h, [])
  | 0, some _, _ => none
  | fuel + 1, some c, h =>
    match h.nodes c with
    | none => none
    | some nd =>
      match nd.val with
      | none => none
      | some v =>
        match h.ints v with
        | none => none
        | some _ =>
          (list_fill i fuel nd.next { h with ints := Function.update h.ints v (some i) }).map
            (fun r => (r.1, c :: r.2))

/-- The nodes reached from `curr` by following `next` until `NULL`, looking at
most `fuel` nodes; `none` when the chain is longer or leaves the allocated nodes. -/
def chain (h : heap) : Nat → Option Nat → Option (List Nat)
  | _, none => some []
  | 0, some _ => none
  | fuel + 1, some c =>
    match h.nodes c with
    | none => none
    | some nd => (chain h fuel nd.next).map (fun l => c :: l)

/-- Local state of `doit_list` that the trials change: the heap and the array
`results`. -/
structure list_run where
  mem : heap
  results : List ℚ

/-- One iteration, for trial index `i`, of the trial loop of `doit_list`; the two
calls of `clock_gettime` are the calls number `2 * i` and `2 * i + 1`. -/
def list_trial (fuel : Nat) (head : Option Nat) (clock : Nat → timespec) (i : Nat)
    (s : list_run) : Option list_run :=
  let begin_ := clock (2 * i)
  (list_fill (wrap32 i) fuel head s.mem).map fun r =>
    let end_ := clock (2 * i + 1)
    { mem := r.1, results := s.results.set i (diff_timespec_double end_ begin_) }

/-- State of `doit_list` after the first `n` iterations of the trial loop
`for (i = 0; i < ITERS; i++)`, entered with heap `h0`. -/
def list_trials (fuel : Nat) (head : Option Nat) (clock : Nat → timespec) (h0 : heap) :
    Nat → Option list_run
  | 0 => some { mem := h0, results := List.replicate ITERS 0 }
  | n + 1 => (list_trials fuel head clock h0 n).bind (list_trial fuel head clock n)

/-- The call `free(p)` for a pointer to `int`: nothing for `NULL`, `none` when `p`
is not an allocated `int`. -/
def free_int (p : Option Nat) (h : heap) : Option heap :=
  match p with
  | none => some h
  | some v =>
    match h.ints v with
    | none => none
    | some _ => some { h with ints := Function.update h.ints v none }

/-- The call `free(p)` for a pointer to `struct node`. -/
def free_node (p : Option Nat) (h : heap) : Option heap :=
  match p with
  | none => some h
  | some a =>
    match h.nodes a with
    | none => none
    | some _ => some { h with nodes := Function.update h.nodes a none }

/-- The loop `while (head) { next = head->next; free(head->val); free(head);
head = next; }` run for at most `fuel` iterations. -/
def free_list : Nat → Option Nat → heap → Option heap
  | _, none, h => some h
  | 0, some _, _ => none
  | fuel + 1, some c, h =>
    match h.nodes c with
    | none => none
    | some nd =>
      ((free_int nd.val h).bind (free_node (some c))).bind (free_list fuel nd.next)

/-- The loop `for (i = 0; i < POOLSIZE; i++) free(node_pool[i]);` over the cells
of the pool, in order. -/
def free_pool : List Nat → heap → Option heap
  | [], h => some h
  | p :: rest, h => (free_node (some p) h).bind (free_pool rest)

/-- The function `doit_list` of `itertest.c`; the two `while` loops over the list
are given `size` iterations of fuel. -/
def doit_list (size : Nat) (rand : Nat → Nat) (clock : Nat → timespec) : Option ℚ :=
  (build rand size).bind fun s =>
    (list_trials size s.head clock s.mem ITERS).bind fun r =>
      (free_list size s.head r.mem).bind fun h1 =>
        (free_pool s.node_pool h1).map fun _ => average r.results

/-! ### Specification predicates for the list -/

/-- In heap `h` the chain from `head` is the list `l` of pairs (address of the
node, address of the `int` it owns), each node and each `int` being allocated. -/
def is_chain (h : heap) : Option Nat → List (Nat × Nat) → Prop
  | head, [] => head = none
  | head, (a, v) :: rest =>
    head = some a ∧ ∃ nd, h.nodes a = some nd ∧ nd.val = some v ∧
      (∃ x, h.ints v = some x) ∧ is_chain h nd.next rest

/-- The invariant of the build loop of `doit_list`. -/
structure build_inv (s : list_state) (l : List (Nat × Nat)) : Prop where
  pool_length : s.node_pool.length = POOLSIZE
  pool_nodup : s.node_pool.Nodup
  pool_fresh : ∀ p ∈ s.node_pool, s.mem.nodes p = some ⟨none, none⟩
  chain_ok : is_chain s.mem s.head l
  nodes_nodup : (l.map Prod.fst).Nodup
  vals_nodup : (l.map Prod.snd).Nodup
  pool_not_in_list : ∀ p ∈ s.node_pool, p ∉ l.map Prod.fst
  above_brk : ∀ a, s.mem.brk ≤ a → s.mem.nodes a = none ∧ s.mem.ints a = none

/-- The elapsed-time samples of the `ITERS` trials, in trial order: trial `t`
reads the clock before (reading `2 * t`) and after (reading `2 * t + 1`) its
traversal. -/
def trial_samples (clock : Nat → timespec) : List ℚ :=
  (List.range ITERS).map fun t =>
    diff_timespec_double (clock (2 * t + 1)) (clock (2 * t))

/-- The `double` that the summing loop and the final division produce from the
samples `l`: they are added left to right, starting from `0.0`, each addition
rounded, and the sum is divided by `20.0`, rounded. -/
def double_mean (l : List ℚ) : ℚ := double_div (l.foldl double_add 0) 20

/-! ### Command line of `itertest` -/

/-- The C library predicate `isspace` in the "C" locale: space, and the
characters `\t`, `\n`, `\v`, `\f`, `\r` (codes 9 to 13). -/
def isspace (c : Char) : Bool := c.toNat = 32 || (9 ≤ c.toNat && c.toNat ≤ 13)

/-- The value of a string of decimal digits. -/
def digits_value (ds : List Char) : Nat :=
  ds.foldl (fun acc d => 10 * acc + (d.toNat - 48)) 0

/-- The C library call `strtoll(nptr, &err, 10)`: the value returned, and the
part of the string that `err` points to afterwards. White space is skipped, an
optional sign is read, then the longest run of decimal digits; with no digit
nothing is consumed, `err` points to the whole of `nptr` and the value is 0; a
value out of range is clamped to `LLONG_MIN` or `LLONG_MAX`. -/
def strtoll (nptr : List Char) : Int × List Char :=
  let t := nptr.dropWhile isspace
  let neg := t.head? = some '-'
  let u := if t.head? = some '-' ∨ t.head? = some '+' then t.tail else t
  let ds := u.takeWhile Char.isDigit
  if ds = [] then (0, nptr)
  else
    let v : Int := if neg then -(digits_value ds : Int) else (digits_value ds : Int)
    (max (-(2 ^ 63)) (min v (2 ^ 63 - 1)), u.dropWhile Char.isDigit)

/-- What `main` writes, apart from the progress lines on standard error. -/
inductive output where
  /-- The line `Invalid iteration count: expected a number, got ...`. -/
  | invalid_count (arg : String)
  /-- The line `Usage: ... <iteration count> <array|list>`. -/
  | usage_line
  /-- The line `Time to iterate through a <mode> of length <iters>: <ts> sec`. -/
  | result_line (mode : String) (iters : Nat) (ts : ℚ)
  deriving DecidableEq, Repr

/-- How a run of the program ends: the exit code, and the lines written. -/
structure exit_status where
  code : Nat
  out : List output
  deriving DecidableEq, Repr

/-- The function `main` of `itertest.c` on the argument vector `argv` (so that
`argc = argv.length`); `usage` prints the usage line and calls `exit(1)`. The
result is `none` when `doit_array` or `doit_list` accesses memory outside the
blocks it allocated. -/
def main (argv : List String) (rand : Nat → Nat) (clock : Nat → timespec) :
    Option exit_status :=
  if argv.length ≠ 3 then some ⟨1, [output.usage_line]⟩
  else
    let arg1 := argv.getD 1 ""
    let arg2 := argv.getD 2 ""
    let r := strtoll arg1.toList
    if r.2 ≠ [] then some ⟨1, [output.invalid_count arg1, output.usage_line]⟩
    else
      let iters : Nat := (r.1 % 2 ^ 64).toNat
      if arg2 = "array" then
        (doit_array iters clock).map fun ts => ⟨0, [output.result_line arg2 iters ts]⟩
      else if arg2 = "list" then
        (doit_list iters rand clock).map fun ts => ⟨0, [output.result_line arg2 iters ts]⟩
      else some ⟨1, [output.usage_line]⟩

end itertest

/-! # Theorems -/

/-! ## Lemmas on machine integers and timing -/

theorem wrap64_of_range (x : Int) (hlo : -(2 ^ 63) ≤ x) (hhi : x < 2 ^ 63) :
    wrap64 x = x := by
  unfold wrap64
  rw [Int.emod_eq_of_lt (by omega) (by omega)]
  omega

theorem wrap32_of_range (x : Int) (hlo : -(2 ^ 31) ≤ x) (hhi : x < 2 ^ 31) :
    wrap32 x = x := by
  unfold wrap32
  rw [Int.emod_eq_of_lt (by omega) (by omega)]
  omega

theorem diff_timespec_exact (t1 t0 : timespec) (hd : diff_defined t1 t0) :
    itertest.diff_timespec t1 t0
      = ((t1.tv_sec - t0.tv_sec : Int) : ℚ)
        + ((t1.tv_nsec - t0.tv_nsec : Int) : ℚ) / 1000000000 := by
  obtain ⟨⟨a1, a2⟩, b1, b2⟩ := hd
  unfold itertest.diff_timespec
  rw [wrap64_of_range _ a1 a2, wrap64_of_range _ b1 b2]

theorem diff_timespec_nonneg (t1 t0 : timespec) (hd : diff_defined t1 t0)
    (h1 : t1.nsec_ok) (h0 : t0.nsec_ok) (hle : t1.not_before t0) :
    0 ≤ itertest.diff_timespec t1 t0 := by
  rw [diff_timespec_exact t1 t0 hd]
  obtain ⟨a3, a4⟩ := h1
  obtain ⟨b3, b4⟩ := h0
  have hn : (-1 : ℚ) < ((t1.tv_nsec - t0.tv_nsec : Int) : ℚ) / 1000000000 := by
    rw [lt_div_iff₀ (by norm_num)]
    have : (-1000000000 : Int) < t1.tv_nsec - t0.tv_nsec := by omega
    have h2 : ((-1000000000 : Int) : ℚ) < ((t1.tv_nsec - t0.tv_nsec : Int) : ℚ) :=
      Int.cast_lt.mpr this
    push_cast at h2 ⊢
    linarith
  rcases hle with hlt | ⟨heq, hns⟩
  · have : (1 : Int) ≤ t1.tv_sec - t0.tv_sec := by omega
    have h2 : ((1 : Int) : ℚ) ≤ ((t1.tv_sec - t0.tv_sec : Int) : ℚ) := Int.cast_le.mpr this
    push_cast at h2 hn ⊢
    linarith
  · have hz : t1.tv_sec - t0.tv_sec = 0 := by omega
    have : (0 : Int) ≤ t1.tv_nsec - t0.tv_nsec := by omega
    have h2 : ((0 : Int) : ℚ) ≤ ((t1.tv_nsec - t0.tv_nsec : Int) : ℚ) := Int.cast_le.mpr this
    rw [hz]
    have : (0 : ℚ) ≤ ((t1.tv_nsec - t0.tv_nsec : Int) : ℚ) / 1000000000 :=
      div_nonneg (by exact_mod_cast h2) (by norm_num)
    simpa using this

/-! ## Lemmas on the contention benchmark -/

theorem sharing_loop_length (id : Nat) :
    ∀ (d j : Nat) (cs : List Int), sharing.ITERS - j = d →
      (sharing.thread_run_loop id j cs).length = cs.length := by
  intro d
  induction d with
  | zero =>
    intro j cs h
    rw [sharing.thread_run_loop, if_neg (by omega)]
  | succ d ih =>
    intro j cs h
    rw [sharing.thread_run_loop, if_pos (by omega), ih (j + 1) _ (by omega)]
    simp

theorem sharing_loop_frame (id k : Nat) (hk : k ≠ id) :
    ∀ (d j : Nat) (cs : List Int), sharing.ITERS - j = d →
      (sharing.thread_run_loop id j cs)[k]? = cs[k]? := by
  intro d
  induction d with
  | zero =>
    intro j cs h
    rw [sharing.thread_run_loop, if_neg (by omega)]
  | succ d ih =>
    intro j cs h
    rw [sharing.thread_run_loop, if_pos (by omega), ih (j + 1) _ (by omega)]
    exact List.getElem?_set_ne (Ne.symm hk)

theorem sharing_loop_value (id : Nat) :
    ∀ (d j : Nat) (cs : List Int) (v : Int), sharing.ITERS - j = d →
      cs[id]? = some v → 0 ≤ v → v + d < 2 ^ 31 →
      (sharing.thread_run_loop id j cs)[id]? = some (v + d) := by
  intro d
  induction d with
  | zero =>
    intro j cs v h hv _ _
    rw [sharing.thread_run_loop, if_neg (by omega)]
    simpa using hv
  | succ d ih =>
    intro j cs v h hv h0 hlt
    have hid : id < cs.length := by
      rcases Nat.lt_or_ge id cs.length with h1 | h1
      · exact h1
      · rw [List.getElem?_eq_none h1] at hv; cases hv
    have hget : cs.getD id 0 = v := by
      rw [List.getD_eq_getElem?_getD, hv]; rfl
    rw [sharing.thread_run_loop, if_pos (by omega)]
    have hw : wrap32 (cs.getD id 0 + 1) = v + 1 := by
      rw [hget]
      exact wrap32_of_range _ (by omega) (by push_cast at hlt; omega)
    rw [hw, ih (j + 1) _ (v + 1) (by omega) (by simp [hid]) (by omega)
      (by push_cast at hlt ⊢; omega)]
    congr 1
    push_cast
    ring

theorem sharing_thread_run_some (id : Nat) (cs : List Int) (h : id < cs.length) :
    sharing.thread_run id cs = some (sharing.thread_run_loop id 1 cs) := by
  unfold sharing.thread_run
  rw [if_pos h]

theorem fixed_loop_map (id : Nat) :
    ∀ (d j : Nat) (cs : List sharing_fixed.padded_int), sharing.ITERS - j = d →
      (sharing_fixed.thread_run_loop id j cs).map (fun r => r.val)
        = sharing.thread_run_loop id j (cs.map (fun r => r.val)) := by
  have hI : sharing_fixed.ITERS = sharing.ITERS := rfl
  intro d
  induction d with
  | zero =>
    intro j cs h
    rw [sharing.thread_run_loop, if_neg (by omega), sharing_fixed.thread_run_loop,
      if_neg (by omega)]
  | succ d ih =>
    intro j cs h
    have hg : (cs.map (fun r => r.val)).getD id 0
        = (cs.getD id (sharing_fixed.padded_int.mk 0)).val := by
      rcases Nat.lt_or_ge id cs.length with h1 | h1
      · simp [List.getD_eq_getElem?_getD, List.getElem?_eq_getElem h1]
      · simp [List.getD_eq_getElem?_getD, List.getElem?_eq_none h1]
    rw [sharing.thread_run_loop, if_pos (by omega), sharing_fixed.thread_run_loop,
      if_pos (by omega), ih (j + 1) _ (by omega), List.map_set, hg]

theorem fixed_thread_run_map (id : Nat) (cs : List sharing_fixed.padded_int) :
    (sharing_fixed.thread_run id cs).map (List.map (fun r => r.val))
      = sharing.thread_run id (cs.map (fun r => r.val)) := by
  unfold sharing_fixed.thread_run sharing.thread_run
  by_cases h : id < cs.length
  · rw [if_pos h, if_pos (by simpa using h)]
    simp only [Option.map_some']
    rw [fixed_loop_map id _ 1 cs rfl]
  · rw [if_neg h, if_neg (by simpa using h)]
    rfl

theorem fixed_run_threads_map (order : List Nat) :
    ∀ cs : List sharing_fixed.padded_int,
      (sharing_fixed.run_threads order cs).map (List.map (fun r => r.val))
        = sharing.run_threads order (cs.map (fun r => r.val)) := by
  induction order with
  | nil => intro cs; rfl
  | cons t rest ih =>
    intro cs
    unfold sharing_fixed.run_threads sharing.run_threads
    rw [← fixed_thread_run_map]
    cases sharing_fixed.thread_run t cs with
    | none => rfl
    | some cs1 => simpa using ih cs1

theorem sharing_run_threads_spec (order : List Nat) (hnd : order.Nodup) :
    ∀ cs : List Int, (∀ t ∈ order, cs[t]? = some 0) →
      ∃ cs1, sharing.run_threads order cs = some cs1 ∧ cs1.length = cs.length ∧
        (∀ t ∈ order, cs1[t]? = some 536870911) ∧
        (∀ k, k ∉ order → cs1[k]? = cs[k]?) := by
  induction order with
  | nil =>
    intro cs _
    exact ⟨cs, rfl, rfl, by simp, fun _ _ => rfl⟩
  | cons t rest ih =>
    intro cs hz
    obtain ⟨htr, hnd1⟩ := List.nodup_cons.mp hnd
    have ht0 : cs[t]? = some 0 := hz t (List.mem_cons_self _ _)
    have htlen : t < cs.length := by
      rcases Nat.lt_or_ge t cs.length with h1 | h1
      · exact h1
      · rw [List.getElem?_eq_none h1] at ht0; cases ht0
    have hv := sharing_loop_value t (sharing.ITERS - 1) 1 cs 0 rfl ht0 (le_refl _)
      (by decide)
    have hfr := fun k (hk : k ≠ t) => sharing_loop_frame t k hk (sharing.ITERS - 1) 1 cs rfl
    obtain ⟨cs1, hrun, hlen, hin, hout⟩ := ih hnd1 (sharing.thread_run_loop t 1 cs)
      (by
        intro u hu
        have hut : u ≠ t := fun e => htr (e ▸ hu)
        rw [hfr u hut]
        exact hz u (List.mem_cons_of_mem _ hu))
    refine ⟨cs1, ?_, ?_, ?_, ?_⟩
    · unfold sharing.run_threads
      rw [sharing_thread_run_some t cs htlen]
      exact hrun
    · rw [hlen, sharing_loop_length t _ 1 cs rfl]
    · intro u hu
      rcases List.mem_cons.mp hu with e | hu1
      · subst e
        rw [hout u htr, hv]
        rfl
      · exact hin u hu1
    · intro k hk
      have hkt : k ≠ t := fun e => hk (e ▸ List.mem_cons_self _ _)
      have hkr : k ∉ rest := fun e => hk (List.mem_cons_of_mem _ e)
      rw [hout k hkr, hfr k hkt]

theorem fixed_loop_length (id : Nat) :
    ∀ (d j : Nat) (cs : List sharing_fixed.padded_int), sharing_fixed.ITERS - j = d →
      (sharing_fixed.thread_run_loop id j cs).length = cs.length := by
  intro d
  induction d with
  | zero =>
    intro j cs h
    rw [sharing_fixed.thread_run_loop, if_neg (by omega)]
  | succ d ih =>
    intro j cs h
    rw [sharing_fixed.thread_run_loop, if_pos (by omega), ih (j + 1) _ (by omega)]
    simp

theorem fixed_loop_frame (id k : Nat) (hk : k ≠ id) :
    ∀ (d j : Nat) (cs : List sharing_fixed.padded_int), sharing_fixed.ITERS - j = d →
      (sharing_fixed.thread_run_loop id j cs)[k]? = cs[k]? := by
  intro d
  induction d with
  | zero =>
    intro j cs h
    rw [sharing_fixed.thread_run_loop, if_neg (by omega)]
  | succ d ih =>
    intro j cs h
    rw [sharing_fixed.thread_run_loop, if_pos (by omega), ih (j + 1) _ (by omega)]
    exact List.getElem?_set_ne (Ne.symm hk)

/-! ## Interleaved execution of the workers -/

theorem cohort_init_inv (K : Nat) : sharing.cohort_inv (sharing.cohort_init K) := by
  refine ⟨by simp [sharing.cohort_init, sharing.alloc_counters], ?_⟩
  intro t w hw
  simp only [sharing.cohort_init, List.getElem?_replicate] at hw
  split at hw
  · rename_i ht
    cases hw
    refine ⟨le_refl _, by decide, ?_, ?_⟩
    · simp [sharing.cohort_init, sharing.alloc_counters, List.getElem?_replicate, ht]
    · intro v hv; cases hv
  · cases hw

theorem step_inv (t : Nat) (s : sharing.cohort) (hinv : sharing.cohort_inv s) :
    sharing.cohort_inv (sharing.step t s) := by
  obtain ⟨hlen, hall⟩ := hinv
  unfold sharing.step
  cases hw : s.workers[t]? with
  | none => exact ⟨hlen, hall⟩
  | some w =>
    obtain ⟨h1, h2, hc, hreg⟩ := hall t w hw
    have htlen : t < s.workers.length := by
      rcases Nat.lt_or_ge t s.workers.length with h | h
      · exact h
      · rw [List.getElem?_eq_none h] at hw; cases hw
    cases hr : w.reg with
    | none =>
      simp only [hr]
      by_cases hj : w.j < sharing.ITERS
      · rw [if_pos hj]
        refine ⟨by simpa using hlen, ?_⟩
        intro u x hx
        by_cases hut : u = t
        · subst hut
          rw [List.getElem?_set_self htlen] at hx
          cases hx
          refine ⟨h1, h2, hc, ?_⟩
          intro v hv
          cases hv
          refine ⟨?_, hj⟩
          rw [List.getD_eq_getElem?_getD, hc]
          rfl
        · rw [List.getElem?_set_ne (fun e => hut e.symm)] at hx
          exact hall u x hx
      · rw [if_neg hj]
        exact ⟨hlen, hall⟩
    | some v =>
      simp only [hr]
      obtain ⟨hv, hjlt⟩ := hreg v hr
      refine ⟨by simpa using hlen, ?_⟩
      intro u x hx
      by_cases hut : u = t
      · subst hut
        rw [List.getElem?_set_self htlen] at hx
        cases hx
        refine ⟨?_, ?_, ?_, ?_⟩
        · show 1 ≤ w.j + 1
          omega
        · show w.j + 1 ≤ sharing.ITERS
          omega
        · show (s.counters.set u (wrap32 (v + 1)))[u]? = some (((w.j + 1 : Nat) : Int) - 1)
          rw [List.getElem?_set_self (by omega), hv]
          have hI : (sharing.ITERS : Int) = 536870912 := rfl
          have hlt : (w.j : Int) < sharing.ITERS := by exact_mod_cast hjlt
          rw [wrap32_of_range _ (by omega) (by omega)]
          simp
        · intro y hy; cases hy
      · rw [List.getElem?_set_ne (fun e => hut e.symm)] at hx
        obtain ⟨a1, a2, a3, a4⟩ := hall u x hx
        refine ⟨a1, a2, ?_, a4⟩
        rw [List.getElem?_set_ne (fun e => hut e.symm)]
        exact a3

theorem run_schedule_inv (sched : List Nat) :
    ∀ s, sharing.cohort_inv s → sharing.cohort_inv (sharing.run_schedule sched s) := by
  induction sched with
  | nil => intro s h; exact h
  | cons t rest ih => intro s h; exact ih _ (step_inv t s h)

/-- Whatever the interleaving of the loads and stores of the `K` workers, a worker
that has left its loop (`j = ITERS`) leaves its counter at `ITERS - 1`. -/
theorem interleaved_final_counter (K : Nat) (sched : List Nat) (i : Nat) (r : Option Int)
    (hdone : (sharing.run_schedule sched (sharing.cohort_init K)).workers[i]?
      = some ⟨sharing.ITERS, r⟩) :
    (sharing.run_schedule sched (sharing.cohort_init K)).counters[i]?
      = some ((sharing.ITERS : Int) - 1) :=
  ((run_schedule_inv sched _ (cohort_init_inv K)).2 i _ hdone).2.2.1

/-- A worker scheduled alone until it leaves its loop changes the counters as
`thread_run` does. -/
theorem run_alone_eq_thread_run (t : Nat) :
    ∀ (d j : Nat) (s : sharing.cohort), sharing.ITERS - j = d → j ≤ sharing.ITERS →
      s.workers[t]? = some ⟨j, none⟩ →
      (sharing.run_schedule (List.replicate (2 * d) t) s).counters
          = sharing.thread_run_loop t j s.counters ∧
      (sharing.run_schedule (List.replicate (2 * d) t) s).workers[t]?
          = some ⟨sharing.ITERS, none⟩ := by
  intro d
  induction d with
  | zero =>
    intro j s h hj hw
    have e : j = sharing.ITERS := by omega
    rw [sharing.thread_run_loop, if_neg (by omega)]
    subst e
    exact ⟨rfl, hw⟩
  | succ d ih =>
    intro j s h hj hw
    have htlen : t < s.workers.length := by
      rcases Nat.lt_or_ge t s.workers.length with h1 | h1
      · exact h1
      · rw [List.getElem?_eq_none h1] at hw; cases hw
    have hrep : List.replicate (2 * (d + 1)) t = t :: t :: List.replicate (2 * d) t := by
      rw [show 2 * (d + 1) = 2 * d + 1 + 1 by ring]
      rfl
    have hjlt : j < sharing.ITERS := by omega
    have hs1 : sharing.step t s
        = { s with workers := s.workers.set t ⟨j, some (s.counters.getD t 0)⟩ } := by
      unfold sharing.step
      simp only [hw, if_pos hjlt]
    have hs2 : sharing.step t (sharing.step t s)
        = { counters := s.counters.set t (wrap32 (s.counters.getD t 0 + 1)),
            workers := (s.workers.set t ⟨j, some (s.counters.getD t 0)⟩).set t
              ⟨j + 1, none⟩ } := by
      rw [hs1]
      unfold sharing.step
      simp only [List.getElem?_set_self htlen]
    rw [hrep, sharing.run_schedule, sharing.run_schedule, hs2, sharing.thread_run_loop,
      if_pos hjlt]
    exact ih (j + 1) _ (by omega) (by omega)
      (List.getElem?_set_self (by simpa using htlen))

/-! ## Contention benchmark: the claims -/

/-- C2. Started on the zero-filled counters, once `thread_run` has completed for
every thread id below `K` (in whatever order `order` the workers complete), both
variants return, counter `i` holds `ITERS - 1 = 2^29 - 1` in the unpadded and in
the padded variant, and the padded counters read through `val` are the unpadded
counters. Moreover, under every interleaving of the loads and stores of the
workers, the counter of a worker that has left its loop holds `ITERS - 1`. -/
theorem cohort_final_counters (K : Nat) (order : List Nat) (i : Nat) (hK : 1 ≤ K)
    (horder : order.Perm (List.range K)) (hi : i < K) :
    (∃ cu cp, sharing.run_cohort K order = some cu ∧
      sharing_fixed.run_cohort K order = some cp ∧
      cu.length = K ∧ cp.length = K ∧
      cu[i]? = some ((sharing.ITERS : Int) - 1) ∧
      cp[i]?.map (fun r => r.val) = some ((sharing_fixed.ITERS : Int) - 1) ∧
      (sharing.ITERS : Int) - 1 = 2 ^ 29 - 1 ∧
      cp.map (fun r => r.val) = cu) ∧
    (∀ (sched : List Nat) (r : Option Int),
      (sharing.run_schedule sched (sharing.cohort_init K)).workers[i]?
        = some ⟨sharing.ITERS, r⟩ →
      (sharing.run_schedule sched (sharing.cohort_init K)).counters[i]?
        = some ((sharing.ITERS : Int) - 1)) := by
  have _ := hK
  refine ⟨?_, fun sched r hdone => interleaved_final_counter K sched i r hdone⟩
  have hnd : order.Nodup := horder.nodup_iff.mpr (List.nodup_range K)
  have hmem : ∀ t, t ∈ order ↔ t < K := fun t => by
    rw [horder.mem_iff, List.mem_range]
  have hz : ∀ t ∈ order, (sharing.alloc_counters K)[t]? = some 0 := by
    intro t ht
    have := (hmem t).mp ht
    simp [sharing.alloc_counters, List.getElem?_replicate, this]
  obtain ⟨cu, hrun, hlen, hin, _⟩ := sharing_run_threads_spec order hnd _ hz
  have hmap := fixed_run_threads_map order (sharing_fixed.alloc_counters K)
  have ha : (sharing_fixed.alloc_counters K).map (fun r => r.val)
      = sharing.alloc_counters K := by
    simp [sharing_fixed.alloc_counters, sharing.alloc_counters]
  rw [ha, hrun] at hmap
  obtain ⟨cp, hcp, hcpm⟩ := Option.map_eq_some'.mp hmap
  have hcui : cu[i]? = some 536870911 := hin i ((hmem i).mpr hi)
  refine ⟨cu, cp, hrun, hcp, ?_, ?_, ?_, ?_, ?_, hcpm⟩
  · rw [hlen]; simp [sharing.alloc_counters]
  · rw [← List.length_map cp (fun r => r.val), hcpm, hlen]; simp [sharing.alloc_counters]
  · rw [hcui]; rfl
  · rw [← List.getElem?_map, hcpm, hcui]; rfl
  · rfl

theorem cohort_final_counters_witness :
    (∃ cu cp, sharing.run_cohort 2 [1, 0] = some cu ∧
      sharing_fixed.run_cohort 2 [1, 0] = some cp ∧
      cu.length = 2 ∧ cp.length = 2 ∧
      cu[1]? = some ((sharing.ITERS : Int) - 1) ∧
      cp[1]?.map (fun r => r.val) = some ((sharing_fixed.ITERS : Int) - 1) ∧
      (sharing.ITERS : Int) - 1 = 2 ^ 29 - 1 ∧
      cp.map (fun r => r.val) = cu) ∧
    (∀ (sched : List Nat) (r : Option Int),
      (sharing.run_schedule sched (sharing.cohort_init 2)).workers[1]?
        = some ⟨sharing.ITERS, r⟩ →
      (sharing.run_schedule sched (sharing.cohort_init 2)).counters[1]?
        = some ((sharing.ITERS : Int) - 1)) :=
  cohort_final_counters 2 [1, 0] 1 (by decide) (by decide) (by decide)

/-- C5. For a thread id `i` below the number `K` of counters and any contents of
the counters, `thread_run i` returns, keeps the number of counters, and leaves
every counter `j ≠ i` below `K` as it was, in the unpadded and in the padded
variant. -/
theorem thread_run_frame (K i j : Nat) (cu : List Int)
    (cp : List sharing_fixed.padded_int) (hu : cu.length = K) (hp : cp.length = K)
    (hi : i < K) (hj : j < K) (hji : j ≠ i) :
    (∃ cu1, sharing.thread_run i cu = some cu1 ∧ cu1.length = K ∧
        cu1[j]? = cu[j]? ∧ cu[j]? ≠ none) ∧
    (∃ cp1, sharing_fixed.thread_run i cp = some cp1 ∧ cp1.length = K ∧
        cp1[j]? = cp[j]? ∧ cp[j]? ≠ none) := by
  constructor
  · refine ⟨sharing.thread_run_loop i 1 cu, ?_, ?_, ?_, ?_⟩
    · exact sharing_thread_run_some i cu (by omega)
    · rw [sharing_loop_length i _ 1 cu rfl, hu]
    · exact sharing_loop_frame i j hji _ 1 cu rfl
    · rw [List.getElem?_eq_getElem (by omega)]; simp
  · refine ⟨sharing_fixed.thread_run_loop i 1 cp, ?_, ?_, ?_, ?_⟩
    · unfold sharing_fixed.thread_run
      rw [if_pos (by omega)]
    · rw [fixed_loop_length i _ 1 cp rfl, hp]
    · exact fixed_loop_frame i j hji _ 1 cp rfl
    · rw [List.getElem?_eq_getElem (by omega)]; simp

theorem thread_run_frame_witness :
    (∃ cu1, sharing.thread_run 1 [7, -3, 2147483647] = some cu1 ∧ cu1.length = 3 ∧
        cu1[2]? = [7, -3, 2147483647][2]? ∧ ([7, -3, 2147483647] : List Int)[2]? ≠ none) ∧
    (∃ cp1, sharing_fixed.thread_run 1 [⟨7⟩, ⟨-3⟩, ⟨2147483647⟩] = some cp1 ∧
        cp1.length = 3 ∧
        cp1[2]? = ([⟨7⟩, ⟨-3⟩, ⟨2147483647⟩] : List sharing_fixed.padded_int)[2]? ∧
        ([⟨7⟩, ⟨-3⟩, ⟨2147483647⟩] : List sharing_fixed.padded_int)[2]? ≠ none) :=
  thread_run_frame 3 1 2 [7, -3, 2147483647] [⟨7⟩, ⟨-3⟩, ⟨2147483647⟩] rfl rfl
    (by decide) (by decide) (by decide)

/-- C6. A record `union padded_int` is 64 bytes, so counter `i` of the padded
array starts `64 * i` bytes after the base; for a base address that is a multiple
of 4 and indices `i ≠ j`, no byte of counter `i` shares a 64-byte cacheline with a
byte of counter `j`; and in the unpadded array (stride 4) there are a base address
and an index whose counter shares its cacheline with the next counter. -/
theorem padded_one_counter_per_cacheline (base i j bi bj : Nat) (hbase : base % 4 = 0)
    (hij : i ≠ j) (hbi : bi < sizeof_int) (hbj : bj < sizeof_int) :
    sharing_fixed.sizeof_padded_int = 64 ∧
    sharing_fixed.counter_addr base i = base + 64 * i ∧
    cacheline (sharing_fixed.counter_addr base i + bi)
      ≠ cacheline (sharing_fixed.counter_addr base j + bj) ∧
    (∃ b k, b % 4 = 0 ∧ ∀ ci cj, ci < sizeof_int → cj < sizeof_int →
      cacheline (sharing.counter_addr b k + ci)
        = cacheline (sharing.counter_addr b (k + 1) + cj)) := by
  have hs : sharing_fixed.sizeof_padded_int = 64 := by decide
  have h4 : sizeof_int = 4 := rfl
  refine ⟨hs, ?_, ?_, ?_⟩
  · unfold sharing_fixed.counter_addr; rw [hs]; ring
  · unfold sharing_fixed.counter_addr cacheline CACHELINE
    rw [hs]
    omega
  · refine ⟨0, 0, rfl, ?_⟩
    intro ci cj hci hcj
    unfold sharing.counter_addr cacheline CACHELINE
    omega

theorem padded_one_counter_per_cacheline_witness :
    sharing_fixed.sizeof_padded_int = 64 ∧
    sharing_fixed.counter_addr 4 0 = 4 + 64 * 0 ∧
    cacheline (sharing_fixed.counter_addr 4 0 + 3)
      ≠ cacheline (sharing_fixed.counter_addr 4 1 + 0) ∧
    (∃ b k, b % 4 = 0 ∧ ∀ ci cj, ci < sizeof_int → cj < sizeof_int →
      cacheline (sharing.counter_addr b k + ci)
        = cacheline (sharing.counter_addr b (k + 1) + cj)) :=
  padded_one_counter_per_cacheline 4 0 1 3 0 (by decide) (by decide) (by decide)
    (by decide)

/-! ## Lemmas on binary64 rounding -/

theorem log2_aux_spec :
    ∀ (fuel n : Nat), n ≤ fuel → 0 < n →
      2 ^ log2_aux fuel n ≤ n ∧ n < 2 ^ (log2_aux fuel n + 1) := by
  intro fuel
  induction fuel with
  | zero => intro n h h0; omega
  | succ fuel ih =>
    intro n h h0
    unfold log2_aux
    by_cases h2 : n < 2
    · rw [if_pos h2]
      constructor <;> simp <;> omega
    · rw [if_neg h2]
      obtain ⟨h3, h4⟩ := ih (n / 2) (by omega) (by omega)
      constructor
      · rw [pow_succ]; omega
      · rw [pow_succ]; omega

theorem log2_spec (n : Nat) (h0 : 0 < n) : 2 ^ log2 n ≤ n ∧ n < 2 ^ (log2 n + 1) :=
  log2_aux_spec n n (le_refl _) h0

theorem pow2_pos (e : Int) : 0 < pow2 e := by
  unfold pow2
  split
  · positivity
  · positivity

theorem pow2_of_nonneg (e : Int) (h : 0 ≤ e) : pow2 e = (2 : ℚ) ^ e.toNat := by
  unfold pow2
  rw [if_pos h]
  push_cast
  rfl

theorem pow2_of_nonpos (e : Int) (h : e ≤ 0) : pow2 e = 1 / (2 : ℚ) ^ (-e).toNat := by
  unfold pow2
  by_cases h0 : 0 ≤ e
  · have : e = 0 := by omega
    subst this
    simp
  · rw [if_neg h0]
    push_cast
    rfl

theorem pow2_sub_nat (a b : Nat) : pow2 ((a : Int) - (b : Int)) = (2 : ℚ) ^ a / (2 : ℚ) ^ b := by
  have hb : (0 : ℚ) < 2 ^ b := by positivity
  rcases le_total b a with h | h
  · rw [pow2_of_nonneg _ (by omega)]
    have : ((a : Int) - (b : Int)).toNat = a - b := by omega
    rw [this, eq_div_iff (ne_of_gt hb), ← pow_add]
    congr 1
    omega
  · rw [pow2_of_nonpos _ (by omega)]
    have : (-((a : Int) - (b : Int))).toNat = b - a := by omega
    rw [this, div_eq_div_iff (by positivity) (ne_of_gt hb), one_mul, ← pow_add]
    congr 1
    omega

theorem pow2_pred (k : Int) : pow2 (k - 1) = pow2 k / 2 := by
  have hk := pow2_pos k
  rcases le_or_lt 1 k with h | h
  · rw [pow2_of_nonneg _ (by omega), pow2_of_nonneg _ (by omega)]
    have : k.toNat = (k - 1).toNat + 1 := by omega
    rw [this, pow_succ]
    field_simp
  · rw [pow2_of_nonpos _ (by omega), pow2_of_nonpos _ (by omega)]
    have : (-(k - 1)).toNat = (-k).toNat + 1 := by omega
    rw [this, pow_succ]
    field_simp

theorem ilog2_le (q : ℚ) (hq : 0 < q) : pow2 (ilog2 q) ≤ q := by
  unfold ilog2
  simp only
  split
  · assumption
  · rw [pow2_pred, pow2_sub_nat]
    have hn : 0 < q.num.natAbs := Int.natAbs_pos.mpr (ne_of_gt (Rat.num_pos.mpr hq))
    have hd : 0 < q.den := q.den_pos
    obtain ⟨h1, _⟩ := log2_spec _ hn
    obtain ⟨_, h4⟩ := log2_spec _ hd
    have hnum : (q.num : ℚ) = ((q.num.natAbs : Nat) : ℚ) := by
      have h := Int.natAbs_of_nonneg (le_of_lt (Rat.num_pos.mpr hq))
      calc (q.num : ℚ) = (((q.num.natAbs : Nat) : Int) : ℚ) := by rw [h]
        _ = ((q.num.natAbs : Nat) : ℚ) := Int.cast_natCast _
    have hqe : (q.num.natAbs : ℚ) / (q.den : ℚ) = q := by
      rw [← hnum]
      exact Rat.num_div_den q
    have h1q : (2 : ℚ) ^ log2 q.num.natAbs ≤ (q.num.natAbs : ℚ) := by exact_mod_cast h1
    have h4q : (q.den : ℚ) < (2 : ℚ) ^ (log2 q.den + 1) := by exact_mod_cast h4
    have hdq : (0 : ℚ) < (q.den : ℚ) := by exact_mod_cast hd
    have key : (2 : ℚ) ^ log2 q.num.natAbs / 2 ^ log2 q.den / 2
        ≤ (q.num.natAbs : ℚ) / (q.den : ℚ) := by
      rw [div_div, div_le_div_iff₀ (by positivity) hdq]
      have h5 : (2 : ℚ) ^ log2 q.den * 2 = 2 ^ (log2 q.den + 1) := by rw [pow_succ]
      rw [h5]
      have hp : (0 : ℚ) ≤ 2 ^ log2 q.num.natAbs := by positivity
      nlinarith
    rw [hqe] at key
    exact key

theorem le_round_half_even (y : ℚ) (K : Int) (h : (K : ℚ) ≤ y) : K ≤ round_half_even y := by
  have hf : K ≤ ⌊y⌋ := Int.le_floor.mpr h
  unfold round_half_even
  simp only
  split_ifs <;> omega

theorem round_half_even_le (y : ℚ) (K : Int) (h : y ≤ (K : ℚ)) : round_half_even y ≤ K := by
  unfold round_half_even
  simp only
  rcases eq_or_lt_of_le h with e | hlt
  · have hf : ⌊y⌋ = K := by rw [e]; exact Int.floor_intCast K
    have hr : y - (⌊y⌋ : ℚ) < 1 / 2 := by rw [hf, e]; norm_num
    rw [if_pos hr, hf]
  · have hf : ⌊y⌋ < K := Int.floor_lt.mpr hlt
    split_ifs <;> omega

theorem to_double_of_pos (x : ℚ) (hx : 0 < x) :
    to_double x = (round_half_even (x / pow2 (max (ilog2 x - 52) (-1074)) ) : ℚ)
      * pow2 (max (ilog2 x - 52) (-1074)) := by
  unfold to_double
  rw [if_neg (ne_of_gt hx)]
  simp only [if_pos hx]

theorem to_double_zero : to_double 0 = 0 := by
  unfold to_double
  rw [if_pos rfl]

theorem to_double_neg (x : ℚ) : to_double (-x) = -to_double x := by
  rcases lt_trichotomy x 0 with h | h | h
  · have hn : 0 < -x := by linarith
    unfold to_double
    rw [if_neg (ne_of_gt hn), if_neg (ne_of_lt h)]
    simp only [if_pos hn, if_neg (not_lt.mpr (le_of_lt h)), neg_neg]
  · subst h
    simp [to_double_zero]
  · have hn : ¬ (0 < -x) := by linarith
    have hn0 : -x ≠ 0 := by linarith
    unfold to_double
    rw [if_neg hn0, if_neg (ne_of_gt h)]
    simp only [if_neg hn, if_pos h, neg_neg]

theorem to_double_nonneg (x : ℚ) (hx : 0 ≤ x) : 0 ≤ to_double x := by
  rcases eq_or_lt_of_le hx with e | h
  · rw [← e, to_double_zero]
  · rw [to_double_of_pos x h]
    apply mul_nonneg _ (le_of_lt (pow2_pos _))
    have : (0 : Int) ≤ round_half_even (x / pow2 (max (ilog2 x - 52) (-1074))) := by
      apply le_round_half_even
      simpa using div_nonneg hx (le_of_lt (pow2_pos _))
    exact_mod_cast this

theorem pow2_ge_of_ge (E : Int) (n : Nat) (h : (n : Int) ≤ E) : (2 : ℚ) ^ n ≤ pow2 E := by
  rw [pow2_of_nonneg E (by omega)]
  exact pow_le_pow_right₀ (by norm_num) (by omega)

/-- A value that does not exceed a natural number below `2^53` is not rounded
above it. -/
theorem to_double_le_nat (x : ℚ) (c : Nat) (hc : c < 2 ^ 53) (hx : 0 < x)
    (hxc : x ≤ (c : ℚ)) : to_double x ≤ (c : ℚ) := by
  rw [to_double_of_pos x hx]
  have hE := ilog2_le x hx
  generalize he : max (ilog2 x - 52) (-1074) = e
  have hpe := pow2_pos e
  rcases le_or_lt e 0 with h0 | h0
  · have hp := pow2_of_nonpos e h0
    have hK : x / pow2 e ≤ ((c * 2 ^ (-e).toNat : Nat) : Int) := by
      rw [hp]
      push_cast
      rw [div_le_iff₀ (by positivity)]
      have : (0 : ℚ) < 2 ^ (-e).toNat := by positivity
      field_simp
      exact hxc
    have hm := round_half_even_le _ _ hK
    have hm' : (round_half_even (x / pow2 e) : ℚ) ≤ ((c * 2 ^ (-e).toNat : Nat) : ℚ) := by
      exact_mod_cast hm
    calc (round_half_even (x / pow2 e) : ℚ) * pow2 e
        ≤ ((c * 2 ^ (-e).toNat : Nat) : ℚ) * pow2 e :=
          mul_le_mul_of_nonneg_right hm' (le_of_lt hpe)
      _ = (c : ℚ) := by
          rw [hp]
          push_cast
          field_simp
  · exfalso
    have hE53 : (53 : Int) ≤ ilog2 x := by
      have : e = ilog2 x - 52 := by
        rw [← he]
        apply max_eq_left
        rw [← he] at h0
        rcases le_max_iff.mp (le_of_lt h0) with h | h
        · omega
        · omega
      omega
    have h53 := pow2_ge_of_ge (ilog2 x) 53 (by exact_mod_cast hE53)
    have hcq : (c : ℚ) < 2 ^ 53 := by exact_mod_cast hc
    linarith

/-- A value that is at least a natural number below `2^53` is not rounded below
it. -/
theorem nat_le_to_double (x : ℚ) (c : Nat) (hc : c < 2 ^ 53) (hc0 : 0 < c)
    (hcx : (c : ℚ) ≤ x) : (c : ℚ) ≤ to_double x := by
  have hx : 0 < x := lt_of_lt_of_le (by exact_mod_cast hc0) hcx
  rw [to_double_of_pos x hx]
  have hE := ilog2_le x hx
  generalize he : max (ilog2 x - 52) (-1074) = e at *
  have hpe := pow2_pos e
  rcases le_or_lt e 0 with h0 | h0
  · have hp := pow2_of_nonpos e h0
    have hK : (((c * 2 ^ (-e).toNat : Nat) : Int) : ℚ) ≤ x / pow2 e := by
      rw [hp]
      push_cast
      rw [le_div_iff₀ (by positivity)]
      have : (0 : ℚ) < 2 ^ (-e).toNat := by positivity
      field_simp
      exact hcx
    have hm := le_round_half_even _ _ hK
    have hm' : ((c * 2 ^ (-e).toNat : Nat) : ℚ) ≤ (round_half_even (x / pow2 e) : ℚ) := by
      exact_mod_cast hm
    calc (c : ℚ) = ((c * 2 ^ (-e).toNat : Nat) : ℚ) * pow2 e := by
          rw [hp]
          push_cast
          field_simp
      _ ≤ (round_half_even (x / pow2 e) : ℚ) * pow2 e :=
          mul_le_mul_of_nonneg_right hm' (le_of_lt hpe)
  · have heq : e = ilog2 x - 52 := by
      rw [← he]
      apply max_eq_left
      rw [← he] at h0
      rcases le_max_iff.mp (le_of_lt h0) with h | h
      · omega
      · omega
    have hEe : ilog2 x = e + 52 := by omega
    have hpE : pow2 (ilog2 x) = pow2 e * 2 ^ 52 := by
      rw [hEe, pow2_of_nonneg _ (by omega), pow2_of_nonneg _ (by omega)]
      have : (e + 52).toNat = e.toNat + 52 := by omega
      rw [this, pow_add]
    have hK : (((2 ^ 52 : Nat) : Int) : ℚ) ≤ x / pow2 e := by
      rw [le_div_iff₀ hpe]
      push_cast
      rw [hpE] at hE
      linarith
    have hm := le_round_half_even _ _ hK
    have hm' : ((2 ^ 52 : Nat) : ℚ) ≤ (round_half_even (x / pow2 e) : ℚ) := by
      exact_mod_cast hm
    have hp2 : (2 : ℚ) ^ 1 ≤ pow2 e := pow2_ge_of_ge e 1 (by omega)
    have hcq : (c : ℚ) < 2 ^ 53 := by exact_mod_cast hc
    have h1 : ((2 ^ 52 : Nat) : ℚ) * pow2 e ≤ (round_half_even (x / pow2 e) : ℚ) * pow2 e :=
      mul_le_mul_of_nonneg_right hm' (le_of_lt hpe)
    have h2 : ((2 ^ 52 : Nat) : ℚ) * 2 ^ 1 ≤ ((2 ^ 52 : Nat) : ℚ) * pow2 e :=
      mul_le_mul_of_nonneg_left hp2 (by positivity)
    have h3 : ((2 ^ 52 : Nat) : ℚ) * 2 ^ 1 = 2 ^ 53 := by norm_num
    linarith

theorem neg_nat_le_to_double (x : ℚ) (c : Nat) (hc : c < 2 ^ 53) (h : -(c : ℚ) ≤ x) :
    -(c : ℚ) ≤ to_double x := by
  rcases le_or_lt 0 x with h0 | h0
  · have := to_double_nonneg x h0
    have hc0 : (0 : ℚ) ≤ (c : ℚ) := by positivity
    linarith
  · have hx : to_double x = -to_double (-x) := by rw [to_double_neg, neg_neg]
    have := to_double_le_nat (-x) c hc (by linarith) (by linarith)
    rw [hx]
    linarith

theorem diff_timespec_double_nonneg (t1 t0 : timespec) (hd : diff_defined t1 t0)
    (h1 : t1.nsec_ok) (h0 : t0.nsec_ok) (hle : t1.not_before t0) :
    0 ≤ itertest.diff_timespec_double t1 t0 := by
  obtain ⟨⟨a1, a2⟩, b1, b2⟩ := hd
  obtain ⟨a3, a4⟩ := h1
  obtain ⟨b3, b4⟩ := h0
  unfold itertest.diff_timespec_double double_add double_div double_of_long
  rw [wrap64_of_range _ a1 a2, wrap64_of_range _ b1 b2]
  apply to_double_nonneg
  have hB : -((1000000000 : Nat) : ℚ) ≤ ((t1.tv_nsec - t0.tv_nsec : Int) : ℚ) := by
    have : (-1000000000 : Int) ≤ t1.tv_nsec - t0.tv_nsec := by omega
    have h2 : ((-1000000000 : Int) : ℚ) ≤ ((t1.tv_nsec - t0.tv_nsec : Int) : ℚ) :=
      Int.cast_le.mpr this
    push_cast at h2 ⊢
    linarith
  have hB1 := neg_nat_le_to_double _ 1000000000 (by norm_num) hB
  have hq : -((1 : Nat) : ℚ)
      ≤ to_double ((t1.tv_nsec - t0.tv_nsec : Int) : ℚ) / 1000000000 := by
    rw [le_div_iff₀ (by norm_num)]
    push_cast at hB1 ⊢
    linarith
  have hq1 := neg_nat_le_to_double _ 1 (by norm_num) hq
  rcases hle with hlt | ⟨heq, hns⟩
  · have hA : ((1 : Nat) : ℚ) ≤ ((t1.tv_sec - t0.tv_sec : Int) : ℚ) := by
      have : (1 : Int) ≤ t1.tv_sec - t0.tv_sec := by omega
      have h2 : ((1 : Int) : ℚ) ≤ ((t1.tv_sec - t0.tv_sec : Int) : ℚ) := Int.cast_le.mpr this
      push_cast at h2 ⊢
      linarith
    have hA1 := nat_le_to_double _ 1 (by norm_num) (by norm_num) hA
    simp only [Nat.cast_one] at hA1 hq1
    linarith
  · have hz : t1.tv_sec - t0.tv_sec = 0 := by omega
    rw [hz]
    have hBn : (0 : ℚ) ≤ ((t1.tv_nsec - t0.tv_nsec : Int) : ℚ) := by
      have : (0 : Int) ≤ t1.tv_nsec - t0.tv_nsec := by omega
      exact_mod_cast this
    have h3 := to_double_nonneg _ hBn
    have h4 : (0 : ℚ) ≤ to_double ((t1.tv_nsec - t0.tv_nsec : Int) : ℚ) / 1000000000 :=
      div_nonneg h3 (by norm_num)
    have h5 := to_double_nonneg _ h4
    simp only [Int.cast_zero, to_double_zero, zero_add]
    exact h5

/-! ## Lemmas on the locality benchmark: averaging and array mode -/

theorem sum_results_eq_foldl (results : List ℚ) :
    ∀ n, n ≤ results.length →
      itertest.sum_results results n = (results.take n).foldl double_add 0 := by
  intro n
  induction n with
  | zero => intro _; simp [itertest.sum_results]
  | succ n ih =>
    intro h
    have hn : n < results.length := by omega
    rw [itertest.sum_results, ih (by omega), List.take_succ, List.foldl_append,
      List.getD_eq_getElem?_getD, List.getElem?_eq_getElem hn]
    simp

theorem average_eq (results : List ℚ) (h : results.length = itertest.ITERS) :
    itertest.average results = itertest.double_mean results := by
  unfold itertest.average itertest.double_mean
  rw [sum_results_eq_foldl results itertest.ITERS (by omega), ← h, List.take_length]
  rw [h]
  norm_num [itertest.ITERS]

theorem foldl_double_add_nonneg (l : List ℚ) (hl : ∀ x ∈ l, 0 ≤ x) :
    ∀ acc : ℚ, 0 ≤ acc → 0 ≤ l.foldl double_add acc := by
  induction l with
  | nil => intro acc h; exact h
  | cons x rest ih =>
    intro acc h
    rw [List.foldl_cons]
    apply ih (fun y hy => hl y (List.mem_cons_of_mem _ hy))
    unfold double_add
    exact to_double_nonneg _ (add_nonneg h (hl x (List.mem_cons_self _ _)))

theorem double_mean_nonneg (l : List ℚ) (hl : ∀ x ∈ l, 0 ≤ x) :
    0 ≤ itertest.double_mean l := by
  unfold itertest.double_mean double_div
  apply to_double_nonneg
  exact div_nonneg (foldl_double_add_nonneg l hl 0 (le_refl _)) (by norm_num)

theorem array_cells_of_fits (size : Nat) (hfit : size * sizeof_int < 2 ^ 64) :
    itertest.array_cells size = size := by
  unfold itertest.array_cells
  rw [Nat.mod_eq_of_lt hfit]
  exact Nat.mul_div_cancel size (by decide)

theorem array_fill_spec (size : Nat) (j : Int) :
    ∀ (d i : Nat) (a : List Int), size - i = d → a.length = size →
      ∃ a1, itertest.array_fill size j i a = some a1 ∧ a1.length = size ∧
        ∀ k, a1[k]? = if i ≤ k ∧ k < size then some j else a[k]? := by
  intro d
  induction d with
  | zero =>
    intro i a h hlen
    refine ⟨a, ?_, hlen, ?_⟩
    · rw [itertest.array_fill, if_neg (by omega)]
    · intro k
      rw [if_neg (by omega)]
  | succ d ih =>
    intro i a h hlen
    obtain ⟨a1, hrun, hl1, hget⟩ := ih (i + 1) (a.set i j) (by omega) (by simpa using hlen)
    refine ⟨a1, ?_, hl1, ?_⟩
    · rw [itertest.array_fill, if_pos (by omega), if_pos (by omega)]
      exact hrun
    · intro k
      rw [hget k]
      by_cases hk : i + 1 ≤ k ∧ k < size
      · rw [if_pos hk, if_pos ⟨by omega, hk.2⟩]
      · rw [if_neg hk]
        by_cases hik : i = k
        · subst hik
          rw [if_pos ⟨le_refl _, by omega⟩]
          exact List.getElem?_set_self (by omega)
        · rw [if_neg (by omega), List.getElem?_set_ne hik]

theorem array_fill_all (size : Nat) (j : Int) (a : List Int) (hlen : a.length = size) :
    itertest.array_fill size j 0 a = some (List.replicate size j) := by
  obtain ⟨a1, hrun, hl1, hget⟩ := array_fill_spec size j size 0 a rfl hlen
  rw [hrun]
  congr 1
  apply List.ext_getElem?
  intro k
  rw [hget k, List.getElem?_replicate]
  by_cases hk : k < size
  · rw [if_pos ⟨Nat.zero_le _, hk⟩, if_pos hk]
  · rw [if_neg (by omega), if_neg hk, List.getElem?_eq_none (by omega)]

/-- When the byte count `size * sizeof(int)` fits `size_t`: after `n` trials of
`doit_array` the array has its `size` cells, `results` has its `ITERS` cells, cell
`t < n` of `results` holds the sample of trial `t`, and every cell of the array
holds `n - 1`. -/
theorem array_trials_spec (size : Nat) (clock : Nat → timespec)
    (hfit : size * sizeof_int < 2 ^ 64) :
    ∀ n, n ≤ itertest.ITERS →
      ∃ s, itertest.array_trials size clock n = some s ∧
        s.a.length = size ∧ s.results.length = itertest.ITERS ∧
        (∀ t, t < n → s.results[t]?
          = some (itertest.diff_timespec_double (clock (2 * t + 1)) (clock (2 * t)))) ∧
        (0 < n → s.a = List.replicate size ((n : Int) - 1)) := by
  intro n
  induction n with
  | zero =>
    intro _
    refine ⟨itertest.array_init size, rfl, ?_, ?_, ?_, ?_⟩
    · simp [itertest.array_init, array_cells_of_fits size hfit]
    · simp [itertest.array_init]
    · intro t ht; omega
    · intro h; omega
  | succ n ih =>
    intro hn
    obtain ⟨s, hrun, hal, hrl, hr, _⟩ := ih (by omega)
    have hw : wrap32 (n : Int) = n := by
      apply wrap32_of_range
      · omega
      · have : n < 20 := hn
        omega
    have hfill := array_fill_all size (wrap32 n) s.a hal
    refine ⟨⟨List.replicate size (wrap32 n), s.results.set n
        (itertest.diff_timespec_double (clock (2 * n + 1)) (clock (2 * n)))⟩,
      ?_, ?_, ?_, ?_, ?_⟩
    · simp only [itertest.array_trials, hrun, Option.some_bind, itertest.array_trial, hfill,
        Option.map_some']
    · simp
    · simpa using hrl
    · intro t ht
      by_cases htn : t = n
      · subst htn
        exact List.getElem?_set_self (by rw [hrl]; exact hn)
      · show (s.results.set n _)[t]? = _
        rw [List.getElem?_set_ne (fun e => htn e.symm), hr t (by omega)]
    · intro _
      have e : ((n + 1 : Nat) : Int) - 1 = (n : Int) := by push_cast; ring
      show List.replicate size (wrap32 n) = _
      rw [hw, e]

/-! ## Lemmas on the locality benchmark: chains in the heap -/

theorem is_chain_frame (h h1 : itertest.heap) :
    ∀ (l : List (Nat × Nat)) (head : Option Nat), itertest.is_chain h head l →
      (∀ p ∈ l, h1.nodes p.1 = h.nodes p.1 ∧
        ((∃ x, h.ints p.2 = some x) → ∃ y, h1.ints p.2 = some y)) →
      itertest.is_chain h1 head l := by
  intro l
  induction l with
  | nil => intro head hc _; exact hc
  | cons p rest ih =>
    intro head hc hfr
    obtain ⟨a, v⟩ := p
    obtain ⟨hh, nd, hnd, hval, hint, hrest⟩ := hc
    have hp := hfr (a, v) (List.mem_cons_self _ _)
    refine ⟨hh, nd, ?_, hval, hp.2 hint, ?_⟩
    · rw [hp.1]; exact hnd
    · exact ih nd.next hrest (fun q hq => hfr q (List.mem_cons_of_mem _ hq))

theorem is_chain_alloc (h : itertest.heap) :
    ∀ (l : List (Nat × Nat)) (head : Option Nat), itertest.is_chain h head l →
      ∀ p ∈ l, h.nodes p.1 ≠ none ∧ h.ints p.2 ≠ none := by
  intro l
  induction l with
  | nil => intro _ _ p hp; cases hp
  | cons q rest ih =>
    intro head hc p hp
    obtain ⟨a, v⟩ := q
    obtain ⟨_, nd, hnd, _, ⟨x, hx⟩, hrest⟩ := hc
    rcases List.mem_cons.mp hp with e | hp1
    · subst e
      constructor
      · simp [hnd]
      · simp [hx]
    · exact ih nd.next hrest p hp1

theorem chain_of_is_chain (h : itertest.heap) :
    ∀ (l : List (Nat × Nat)) (head : Option Nat) (fuel : Nat),
      itertest.is_chain h head l → l.length ≤ fuel →
      itertest.chain h fuel head = some (l.map Prod.fst) := by
  intro l
  induction l with
  | nil =>
    intro head fuel hc _
    have : head = none := hc
    subst this
    cases fuel <;> rfl
  | cons p rest ih =>
    intro head fuel hc hf
    obtain ⟨a, v⟩ := p
    obtain ⟨hh, nd, hnd, _, _, hrest⟩ := hc
    subst hh
    cases fuel with
    | zero => simp at hf
    | succ f =>
      simp only [itertest.chain, hnd]
      rw [ih nd.next f hrest (by simpa using hf)]
      rfl

theorem list_fill_of_is_chain (i : Int) :
    ∀ (l : List (Nat × Nat)) (head : Option Nat) (fuel : Nat) (h : itertest.heap),
      itertest.is_chain h head l → l.length ≤ fuel →
      ∃ h1, itertest.list_fill i fuel head h = some (h1, l.map Prod.fst) ∧
        h1.nodes = h.nodes ∧ h1.brk = h.brk ∧
        (∀ v ∈ l.map Prod.snd, h1.ints v = some i) ∧
        (∀ a, a ∉ l.map Prod.snd → h1.ints a = h.ints a) := by
  intro l
  induction l with
  | nil =>
    intro head fuel h hc _
    have : head = none := hc
    subst this
    refine ⟨h, ?_, rfl, rfl, ?_, fun _ _ => rfl⟩
    · cases fuel <;> rfl
    · intro v hv; cases hv
  | cons p rest ih =>
    intro head fuel h hc hf
    obtain ⟨a, v⟩ := p
    obtain ⟨hh, nd, hnd, hval, ⟨x, hx⟩, hrest⟩ := hc
    subst hh
    cases fuel with
    | zero => simp at hf
    | succ f =>
      have hc1 : itertest.is_chain
          { h with ints := Function.update h.ints v (some i) } nd.next rest := by
        apply is_chain_frame h _ rest nd.next hrest
        intro q _
        refine ⟨rfl, ?_⟩
        rintro ⟨y, hy⟩
        by_cases e : q.2 = v
        · exact ⟨i, by rw [e]; exact Function.update_same _ _ _⟩
        · exact ⟨y, by rw [← hy]; exact Function.update_noteq e _ _⟩
      obtain ⟨h1, hrun, hn, hb, hin, hout⟩ := ih nd.next f _ hc1 (by simpa using hf)
      refine ⟨h1, ?_, hn, hb, ?_, ?_⟩
      · simp only [itertest.list_fill, hnd, hval, hx, hrun]
        rfl
      · intro w hw
        by_cases hwr : w ∈ rest.map Prod.snd
        · exact hin w hwr
        · have hwv : w = v := by
            rcases List.mem_cons.mp hw with e | e
            · exact e
            · exact absurd e hwr
          rw [hout w hwr, hwv]
          simp
      · intro b hb1
        have hbv : b ≠ v := fun e => hb1 (e ▸ List.mem_cons_self _ _)
        have hbr : b ∉ rest.map Prod.snd := fun e => hb1 (List.mem_cons_of_mem _ e)
        rw [hout b hbr]
        simp [Function.update_noteq hbv]

/-! ## Lemmas on the locality benchmark: building the list -/

theorem pool_init_pool : (itertest.pool_init itertest.POOLSIZE).2 = List.range 32 := by
  rfl

theorem pool_init_spec :
    ∀ n, (itertest.pool_init n).1.brk = n ∧
      (∀ a, (itertest.pool_init n).1.nodes a
        = if a < n then some ⟨none, none⟩ else none) ∧
      (∀ a, (itertest.pool_init n).1.ints a = none) := by
  intro n
  induction n with
  | zero =>
    refine ⟨rfl, ?_, fun _ => rfl⟩
    intro a
    simp [itertest.pool_init, itertest.heap.empty]
  | succ n ih =>
    obtain ⟨hb, hn, hi⟩ := ih
    refine ⟨?_, ?_, ?_⟩
    · simp [itertest.pool_init, itertest.xmalloc_node, hb]
    · intro a
      simp only [itertest.pool_init, itertest.xmalloc_node, hb]
      by_cases e : a = n
      · subst e
        simp
      · rw [Function.update_noteq e, hn a]
        by_cases h1 : a < n
        · rw [if_pos h1, if_pos (by omega)]
        · rw [if_neg h1, if_neg (by omega)]
    · intro a
      simp only [itertest.pool_init, itertest.xmalloc_node]
      exact hi a

theorem build_init_inv : itertest.build_inv itertest.build_init [] := by
  obtain ⟨hb, hn, hi⟩ := pool_init_spec itertest.POOLSIZE
  refine ⟨?_, ?_, ?_, rfl, List.nodup_nil, List.nodup_nil, ?_, ?_⟩
  · show (itertest.pool_init itertest.POOLSIZE).2.length = itertest.POOLSIZE
    rw [pool_init_pool]; rfl
  · show (itertest.pool_init itertest.POOLSIZE).2.Nodup
    rw [pool_init_pool]; exact List.nodup_range 32
  · intro p hp
    have hp1 : p ∈ (itertest.pool_init itertest.POOLSIZE).2 := hp
    rw [pool_init_pool, List.mem_range] at hp1
    show (itertest.pool_init itertest.POOLSIZE).1.nodes p = _
    have hp2 : p < itertest.POOLSIZE := hp1
    rw [hn p, if_pos hp2]
  · intro p _ hp; cases hp
  · intro a ha
    have ha1 : itertest.POOLSIZE ≤ a := by rw [← hb]; exact ha
    constructor
    · show (itertest.pool_init itertest.POOLSIZE).1.nodes a = none
      rw [hn a, if_neg (by omega)]
    · exact hi a

theorem mem_set_of_nodup {l : List Nat} (hnd : l.Nodup) {c : Nat} (hc : c < l.length)
    {m p : Nat} (hp : p ∈ l.set c m) : p = m ∨ (p ∈ l ∧ p ≠ l[c]) := by
  obtain ⟨k, hk, hkp⟩ := List.mem_iff_getElem.mp hp
  rw [List.getElem_set] at hkp
  have hk1 : k < l.length := by simpa using hk
  by_cases e : c = k
  · rw [if_pos e] at hkp
    exact Or.inl hkp.symm
  · rw [if_neg e] at hkp
    refine Or.inr ⟨hkp ▸ List.getElem_mem hk1, ?_⟩
    intro hpc
    rw [← hkp] at hpc
    exact e ((hnd.getElem_inj_iff).mp hpc).symm

theorem build_step_inv (r : Nat) (s : itertest.list_state) (l : List (Nat × Nat))
    (hinv : itertest.build_inv s l) :
    ∃ s1 n, s.node_pool[r % itertest.POOLSIZE]? = some n ∧
      itertest.build_step r s = some s1 ∧ s1.head = some n ∧
      itertest.build_inv s1 ((n, s.mem.brk) :: l) := by
  have hc : r % itertest.POOLSIZE < s.node_pool.length := by
    rw [hinv.pool_length]
    exact Nat.mod_lt _ (by decide)
  have hget : s.node_pool[r % itertest.POOLSIZE]? = some s.node_pool[r % itertest.POOLSIZE] :=
    List.getElem?_eq_getElem hc
  generalize hn : s.node_pool[r % itertest.POOLSIZE] = n at hget
  have hnmem : n ∈ s.node_pool := hn ▸ List.getElem_mem hc
  have hfresh := hinv.pool_fresh n hnmem
  have halloc_lt : ∀ a, s.mem.nodes a ≠ none → a < s.mem.brk := by
    intro a ha
    by_contra hge
    exact ha (hinv.above_brk a (by omega)).1
  have hint_lt : ∀ a, s.mem.ints a ≠ none → a < s.mem.brk := by
    intro a ha
    by_contra hge
    exact ha (hinv.above_brk a (by omega)).2
  have hnlt : n < s.mem.brk := halloc_lt n (by simp [hfresh])
  have hlist := is_chain_alloc s.mem l s.head hinv.chain_ok
  have hpool_lt : ∀ p ∈ s.node_pool, p < s.mem.brk := fun p hp =>
    halloc_lt p (by simp [hinv.pool_fresh p hp])
  have hnew : ∀ p ∈ s.node_pool.set (r % itertest.POOLSIZE) (s.mem.brk + 1),
      p = s.mem.brk + 1 ∨ (p ∈ s.node_pool ∧ p ≠ n) := by
    intro p hp
    have := mem_set_of_nodup hinv.pool_nodup hc hp
    rw [hn] at this
    exact this
  refine ⟨{ mem := { brk := s.mem.brk + 1 + 1,
                     nodes := Function.update
                       (Function.update s.mem.nodes n (some ⟨some s.mem.brk, s.head⟩))
                       (s.mem.brk + 1) (some ⟨none, none⟩),
                     ints := Function.update s.mem.ints s.mem.brk (some 0) },
            node_pool := s.node_pool.set (r % itertest.POOLSIZE) (s.mem.brk + 1),
            head := some n }, n, hget, ?_, rfl, ?_⟩
  · simp only [itertest.build_step, hget, hfresh, itertest.xmalloc_int,
      itertest.xmalloc_node]
  · refine ⟨?_, ?_, ?_, ?_, ?_, ?_, ?_, ?_⟩
    · simp [hinv.pool_length]
    · apply List.Nodup.set hinv.pool_nodup
      intro hm
      have := hpool_lt _ hm
      omega
    · intro p hp
      rcases hnew p hp with e | ⟨hpm, hpn⟩
      · subst e
        exact Function.update_same _ _ _
      · have := hpool_lt p hpm
        show Function.update (Function.update s.mem.nodes n _) (s.mem.brk + 1) _ p = _
        rw [Function.update_noteq (by omega), Function.update_noteq hpn]
        exact hinv.pool_fresh p hpm
    · refine ⟨rfl, ⟨some s.mem.brk, s.head⟩, ?_, rfl, ⟨0, ?_⟩, ?_⟩
      · show Function.update (Function.update s.mem.nodes n _) (s.mem.brk + 1) _ n = _
        rw [Function.update_noteq (by omega), Function.update_same]
      · show Function.update s.mem.ints s.mem.brk (some 0) s.mem.brk = _
        exact Function.update_same _ _ _
      · apply is_chain_frame s.mem _ l s.head hinv.chain_ok
        intro q hq
        have hq1 := hlist q hq
        have hqn : q.1 ≠ n := fun e =>
          hinv.pool_not_in_list n hnmem (e ▸ List.mem_map_of_mem Prod.fst hq)
        have hqb := halloc_lt q.1 hq1.1
        have hqv := hint_lt q.2 hq1.2
        constructor
        · show Function.update (Function.update s.mem.nodes n _) (s.mem.brk + 1) _ q.1 = _
          rw [Function.update_noteq (by omega), Function.update_noteq hqn]
        · rintro ⟨x, hx⟩
          refine ⟨x, ?_⟩
          show Function.update s.mem.ints s.mem.brk (some 0) q.2 = _
          rw [Function.update_noteq (by omega), hx]
    · rw [List.map_cons, List.nodup_cons]
      exact ⟨hinv.pool_not_in_list n hnmem, hinv.nodes_nodup⟩
    · rw [List.map_cons, List.nodup_cons]
      refine ⟨?_, hinv.vals_nodup⟩
      intro hm
      obtain ⟨q, hq, hqe⟩ := List.mem_map.mp hm
      have := hint_lt q.2 (hlist q hq).2
      simp only at hqe
      omega
    · intro p hp
      rw [List.map_cons, List.mem_cons]
      rintro (e | hm)
      · rcases hnew p hp with e1 | ⟨_, hpn⟩
        · simp only at e; omega
        · exact hpn e
      · rcases hnew p hp with e1 | ⟨hpm, _⟩
        · obtain ⟨q, hq, hqe⟩ := List.mem_map.mp hm
          have := halloc_lt q.1 (hlist q hq).1
          omega
        · exact hinv.pool_not_in_list p hpm hm
    · intro a ha
      have ha1 : s.mem.brk + 2 ≤ a := ha
      have hold := hinv.above_brk a (by omega)
      constructor
      · show Function.update (Function.update s.mem.nodes n _) (s.mem.brk + 1) _ a = _
        rw [Function.update_noteq (by omega), Function.update_noteq (by omega)]
        exact hold.1
      · show Function.update s.mem.ints s.mem.brk (some 0) a = _
        rw [Function.update_noteq (by omega)]
        exact hold.2

theorem build_total (rand : Nat → Nat) :
    ∀ n, ∃ s l, itertest.build rand n = some s ∧ itertest.build_inv s l ∧
      l.length = n ∧ (n = 0 → s.head = none) := by
  intro n
  induction n with
  | zero => exact ⟨itertest.build_init, [], rfl, build_init_inv, rfl, fun _ => rfl⟩
  | succ n ih =>
    obtain ⟨s, l, hb, hinv, hl, _⟩ := ih
    obtain ⟨s1, m, _, hstep, _, hinv1⟩ := build_step_inv (rand n) s l hinv
    refine ⟨s1, _, ?_, hinv1, by simp [hl], fun e => by omega⟩
    simp only [itertest.build, hb]
    exact hstep

/-! ## Lemmas on the locality benchmark: trials and teardown of the list -/

theorem list_trials_spec (fuel : Nat) (head : Option Nat) (clock : Nat → timespec)
    (h0 : itertest.heap) (l : List (Nat × Nat)) (hc : itertest.is_chain h0 head l)
    (hf : l.length ≤ fuel) :
    ∀ n, n ≤ itertest.ITERS →
      ∃ r, itertest.list_trials fuel head clock h0 n = some r ∧
        r.mem.nodes = h0.nodes ∧ r.mem.brk = h0.brk ∧
        itertest.is_chain r.mem head l ∧
        r.results.length = itertest.ITERS ∧
        (∀ t, t < n → r.results[t]?
          = some (itertest.diff_timespec_double (clock (2 * t + 1)) (clock (2 * t)))) ∧
        (0 < n → ∀ v ∈ l.map Prod.snd, r.mem.ints v = some ((n : Int) - 1)) ∧
        (∀ a, a ∉ l.map Prod.snd → r.mem.ints a = h0.ints a) := by
  intro n
  induction n with
  | zero =>
    intro _
    refine ⟨_, rfl, rfl, rfl, hc, by simp, ?_, ?_, fun _ _ => rfl⟩
    · intro t ht; omega
    · intro h; omega
  | succ n ih =>
    intro hn
    obtain ⟨r, hrun, hnodes, hbrk, hch, hlen, hres, _, hout⟩ := ih (by omega)
    have hw : wrap32 (n : Int) = n := by
      apply wrap32_of_range
      · omega
      · have : n < 20 := hn
        omega
    obtain ⟨h1, hfill, hn1, hb1, hin1, hout1⟩ :=
      list_fill_of_is_chain (wrap32 n) l head fuel r.mem hch hf
    refine ⟨⟨h1, r.results.set n
        (itertest.diff_timespec_double (clock (2 * n + 1)) (clock (2 * n)))⟩,
      ?_, ?_, ?_, ?_, ?_, ?_, ?_, ?_⟩
    · simp only [itertest.list_trials, hrun, Option.some_bind, itertest.list_trial, hfill,
        Option.map_some']
    · rw [hn1, hnodes]
    · rw [hb1, hbrk]
    · apply is_chain_frame r.mem h1 l head hch
      intro q hq
      refine ⟨by rw [hn1], fun _ => ?_⟩
      exact ⟨_, hin1 q.2 (List.mem_map_of_mem Prod.snd hq)⟩
    · simpa using hlen
    · intro t ht
      by_cases htn : t = n
      · subst htn
        exact List.getElem?_set_self (by rw [hlen]; exact hn)
      · show (r.results.set n _)[t]? = _
        rw [List.getElem?_set_ne (fun e => htn e.symm), hres t (by omega)]
    · intro _ v hv
      show h1.ints v = _
      have e : ((n + 1 : Nat) : Int) - 1 = (n : Int) := by push_cast; ring
      rw [hin1 v hv, hw, e]
    · intro a ha
      show h1.ints a = _
      rw [hout1 a ha, hout a ha]

theorem free_list_of_is_chain :
    ∀ (l : List (Nat × Nat)) (head : Option Nat) (fuel : Nat) (h : itertest.heap),
      itertest.is_chain h head l → (l.map Prod.fst).Nodup → (l.map Prod.snd).Nodup →
      l.length ≤ fuel →
      ∃ h1, itertest.free_list fuel head h = some h1 ∧
        (∀ a, a ∉ l.map Prod.fst → h1.nodes a = h.nodes a) := by
  intro l
  induction l with
  | nil =>
    intro head fuel h hc _ _ _
    have : head = none := hc
    subst this
    refine ⟨h, ?_, fun _ _ => rfl⟩
    cases fuel <;> rfl
  | cons p rest ih =>
    intro head fuel h hc hnn hnv hf
    obtain ⟨a, v⟩ := p
    obtain ⟨hh, nd, hnd, hval, ⟨x, hx⟩, hrest⟩ := hc
    subst hh
    rw [List.map_cons, List.nodup_cons] at hnn hnv
    cases fuel with
    | zero => simp at hf
    | succ f =>
      have hc1 : itertest.is_chain
          { h with ints := Function.update h.ints v none,
                   nodes := Function.update h.nodes a none } nd.next rest := by
        apply is_chain_frame h _ rest nd.next hrest
        intro q hq
        have hqa : q.1 ≠ a := fun e => hnn.1 (List.mem_map.mpr ⟨q, hq, e⟩)
        have hqv : q.2 ≠ v := fun e => hnv.1 (List.mem_map.mpr ⟨q, hq, e⟩)
        constructor
        · exact Function.update_noteq hqa _ _
        · rintro ⟨y, hy⟩
          exact ⟨y, by rw [← hy]; exact Function.update_noteq hqv _ _⟩
      obtain ⟨h1, hrun, hout⟩ := ih nd.next f _ hc1 hnn.2 hnv.2 (by simpa using hf)
      refine ⟨h1, ?_, ?_⟩
      · simp only [itertest.free_list, hnd, hval, itertest.free_int, hx, Option.some_bind,
          itertest.free_node]
        exact hrun
      · intro b hb
        have hba : b ≠ a := fun e => hb (e ▸ List.mem_cons_self _ _)
        have hbr : b ∉ rest.map Prod.fst := fun e => hb (List.mem_cons_of_mem _ e)
        rw [hout b hbr]
        exact Function.update_noteq hba _ _

theorem free_pool_total :
    ∀ (pool : List Nat) (h : itertest.heap), pool.Nodup →
      (∀ p ∈ pool, h.nodes p ≠ none) → ∃ h1, itertest.free_pool pool h = some h1 := by
  intro pool
  induction pool with
  | nil => intro h _ _; exact ⟨h, rfl⟩
  | cons p rest ih =>
    intro h hnd hal
    rw [List.nodup_cons] at hnd
    have hp := hal p (List.mem_cons_self _ _)
    obtain ⟨nd, hnd1⟩ := Option.ne_none_iff_exists'.mp hp
    obtain ⟨h1, hrun⟩ := ih { h with nodes := Function.update h.nodes p none } hnd.2 (by
      intro q hq
      have hqp : q ≠ p := fun e => hnd.1 (e ▸ hq)
      show Function.update h.nodes p none q ≠ none
      rw [Function.update_noteq hqp]
      exact hal q (List.mem_cons_of_mem _ hq))
    refine ⟨h1, ?_⟩
    simp only [itertest.free_pool, itertest.free_node, hnd1, Option.some_bind]
    exact hrun

/-! ## Lemmas on the locality benchmark: the value returned -/

theorem results_eq_samples (clock : Nat → timespec) (results : List ℚ)
    (hlen : results.length = itertest.ITERS)
    (hres : ∀ t, t < itertest.ITERS → results[t]?
      = some (itertest.diff_timespec_double (clock (2 * t + 1)) (clock (2 * t)))) :
    results = itertest.trial_samples clock := by
  apply List.ext_getElem?
  intro t
  unfold itertest.trial_samples
  by_cases ht : t < itertest.ITERS
  · rw [hres t ht, List.getElem?_map, List.getElem?_range ht]
    rfl
  · rw [List.getElem?_eq_none (by omega), List.getElem?_eq_none (by simp; omega)]

theorem doit_array_spec (size : Nat) (clock : Nat → timespec)
    (hfit : size * sizeof_int < 2 ^ 64) :
    ∃ s, itertest.array_trials size clock itertest.ITERS = some s ∧
      s.results = itertest.trial_samples clock ∧
      itertest.doit_array size clock
        = some (itertest.double_mean (itertest.trial_samples clock)) := by
  obtain ⟨s, hrun, _, hrl, hr, _⟩ :=
    array_trials_spec size clock hfit itertest.ITERS (le_refl _)
  have e := results_eq_samples clock _ hrl hr
  refine ⟨s, hrun, e, ?_⟩
  unfold itertest.doit_array
  rw [hrun, Option.map_some', average_eq _ hrl, e]

theorem array_fill_fault (size : Nat) (j : Int) :
    ∀ (d i : Nat) (a : List Int), a.length - i = d → i ≤ a.length → a.length < size →
      itertest.array_fill size j i a = none := by
  intro d
  induction d with
  | zero =>
    intro i a h hi hlt
    rw [itertest.array_fill, if_pos (by omega), if_neg (by omega)]
  | succ d ih =>
    intro i a h hi hlt
    rw [itertest.array_fill, if_pos (by omega), if_pos (by omega)]
    exact ih (i + 1) (a.set i j) (by simp; omega) (by simp; omega) (by simpa using hlt)

theorem array_trials_fault (size : Nat) (clock : Nat → timespec)
    (hcells : itertest.array_cells size < size) :
    ∀ n, itertest.array_trials size clock (n + 1) = none := by
  intro n
  induction n with
  | zero =>
    simp only [itertest.array_trials, Option.some_bind, itertest.array_trial]
    rw [array_fill_fault size _ _ 0 _ rfl (Nat.zero_le _)
      (by simpa [itertest.array_init] using hcells)]
    rfl
  | succ n ih =>
    rw [itertest.array_trials, ih]
    rfl

theorem array_cells_of_overflow (size : Nat) (hov : 2 ^ 64 ≤ size * sizeof_int) :
    itertest.array_cells size < size := by
  unfold itertest.array_cells
  have h4 : sizeof_int = 4 := rfl
  rw [h4] at hov ⊢
  omega

theorem doit_array_none_of_overflow (size : Nat) (clock : Nat → timespec)
    (hov : 2 ^ 64 ≤ size * sizeof_int) : itertest.doit_array size clock = none := by
  unfold itertest.doit_array
  rw [show itertest.ITERS = 19 + 1 from rfl,
    array_trials_fault size clock (array_cells_of_overflow size hov) 19]
  rfl

theorem doit_list_spec (size : Nat) (rand : Nat → Nat) (clock : Nat → timespec) :
    ∃ s r, itertest.build rand size = some s ∧
      itertest.list_trials size s.head clock s.mem itertest.ITERS = some r ∧
      r.results = itertest.trial_samples clock ∧
      itertest.doit_list size rand clock
        = some (itertest.double_mean (itertest.trial_samples clock)) := by
  obtain ⟨s, l, hb, hinv, hl, _⟩ := build_total rand size
  obtain ⟨r, hrun, hnodes, _, hch, hlen, hres, _, _⟩ :=
    list_trials_spec size s.head clock s.mem l hinv.chain_ok (by omega) itertest.ITERS
      (le_refl _)
  obtain ⟨h1, hfree, hout⟩ := free_list_of_is_chain l s.head size r.mem hch
    hinv.nodes_nodup hinv.vals_nodup (by omega)
  obtain ⟨h2, hfp⟩ := free_pool_total s.node_pool h1 hinv.pool_nodup (by
    intro p hp
    rw [hout p (hinv.pool_not_in_list p hp), hnodes, hinv.pool_fresh p hp]
    simp)
  have e := results_eq_samples clock _ hlen hres
  refine ⟨s, r, hb, hrun, e, ?_⟩
  simp only [itertest.doit_list, hb, Option.some_bind, hrun, hfree, hfp, Option.map_some']
  rw [average_eq _ hlen, e]

theorem trial_samples_nonneg (clock : Nat → timespec)
    (hclock : ∀ t, t < itertest.ITERS →
      diff_defined (clock (2 * t + 1)) (clock (2 * t)) ∧
      (clock (2 * t)).nsec_ok ∧ (clock (2 * t + 1)).nsec_ok ∧
      (clock (2 * t + 1)).not_before (clock (2 * t))) :
    0 ≤ itertest.double_mean (itertest.trial_samples clock) := by
  apply double_mean_nonneg
  intro x hx
  unfold itertest.trial_samples at hx
  obtain ⟨t, ht, rfl⟩ := List.mem_map.mp hx
  obtain ⟨hd, h0, h1, hle⟩ := hclock t (List.mem_range.mp ht)
  exact diff_timespec_double_nonneg _ _ hd h1 h0 hle

/-- Rounding does not carry a positive value across a power of two. -/
theorem to_double_le_two_pow (x : ℚ) (k : Nat) (hx : 0 < x) (hxk : x ≤ (2 : ℚ) ^ k) :
    to_double x ≤ (2 : ℚ) ^ k := by
  rw [to_double_of_pos x hx]
  have hE := ilog2_le x hx
  generalize he : max (ilog2 x - 52) (-1074) = e at *
  have hpe := pow2_pos e
  have key : ∀ K : Nat, ((K : Int) : ℚ) * pow2 e = (2 : ℚ) ^ k →
      (round_half_even (x / pow2 e) : ℚ) * pow2 e ≤ (2 : ℚ) ^ k := by
    intro K hK
    have h1 : x / pow2 e ≤ ((K : Int) : ℚ) := by
      rw [div_le_iff₀ hpe, hK]
      exact hxk
    have hm := round_half_even_le _ _ h1
    have hm' : (round_half_even (x / pow2 e) : ℚ) ≤ ((K : Int) : ℚ) := by exact_mod_cast hm
    calc (round_half_even (x / pow2 e) : ℚ) * pow2 e
        ≤ ((K : Int) : ℚ) * pow2 e := mul_le_mul_of_nonneg_right hm' (le_of_lt hpe)
      _ = (2 : ℚ) ^ k := hK
  rcases le_or_lt e 0 with h0 | h0
  · apply key (2 ^ k * 2 ^ (-e).toNat)
    rw [pow2_of_nonpos e h0]
    push_cast
    field_simp
  · rcases le_or_lt e (k : Int) with hek | hek
    · apply key (2 ^ (k - e.toNat))
      rw [pow2_of_nonneg e (by omega)]
      push_cast
      rw [← pow_add]
      congr 1
      omega
    · exfalso
      have heq : e = ilog2 x - 52 := by
        rw [← he]
        apply max_eq_left
        rw [← he] at h0
        rcases le_max_iff.mp (le_of_lt h0) with h | h
        · omega
        · omega
      have h1 := pow2_ge_of_ge (ilog2 x) (k + 1) (by push_cast; omega)
      have h2 : (2 : ℚ) ^ k < 2 ^ (k + 1) := by
        rw [pow_succ]
        have : (0 : ℚ) < 2 ^ k := by positivity
        linarith
      linarith

theorem abs_to_double_le_two_pow (x : ℚ) (k : Nat) (hxk : |x| ≤ (2 : ℚ) ^ k) :
    |to_double x| ≤ (2 : ℚ) ^ k := by
  have hk : (0 : ℚ) ≤ 2 ^ k := by positivity
  rcases lt_trichotomy x 0 with h | h | h
  · have hx : to_double x = -to_double (-x) := by rw [to_double_neg, neg_neg]
    have h1 := to_double_le_two_pow (-x) k (by linarith) (by rw [abs_of_neg h] at hxk; exact hxk)
    have h2 := to_double_nonneg (-x) (by linarith)
    rw [hx, abs_neg, abs_of_nonneg h2]
    exact h1
  · subst h
    rw [to_double_zero, abs_zero]
    exact hk
  · have h1 := to_double_le_two_pow x k h (by rw [abs_of_pos h] at hxk; exact hxk)
    rw [abs_of_nonneg (to_double_nonneg x (le_of_lt h))]
    exact h1

theorem abs_wrap64_le (x : Int) : |((wrap64 x : Int) : ℚ)| ≤ (2 : ℚ) ^ 63 := by
  have h1 : -(2 ^ 63) ≤ wrap64 x ∧ wrap64 x < 2 ^ 63 := by
    unfold wrap64
    omega
  rw [abs_le]
  constructor
  · have : ((-(2 ^ 63) : Int) : ℚ) ≤ ((wrap64 x : Int) : ℚ) := Int.cast_le.mpr h1.1
    push_cast at this
    exact this
  · have : ((wrap64 x : Int) : ℚ) ≤ (((2 ^ 63 : Int)) : ℚ) := Int.cast_le.mpr (le_of_lt h1.2)
    push_cast at this
    exact this

/-- Every sample is at most `2^64` in magnitude, whatever the timestamps. -/
theorem abs_diff_timespec_double_le (t1 t0 : timespec) :
    |itertest.diff_timespec_double t1 t0| ≤ (2 : ℚ) ^ 64 := by
  unfold itertest.diff_timespec_double double_add double_div double_of_long
  apply abs_to_double_le_two_pow
  have hA := abs_to_double_le_two_pow _ 63 (abs_wrap64_le (t1.tv_sec - t0.tv_sec))
  have hB := abs_to_double_le_two_pow _ 63 (abs_wrap64_le (t1.tv_nsec - t0.tv_nsec))
  have hq : |to_double ((wrap64 (t1.tv_nsec - t0.tv_nsec) : Int) : ℚ) / 1000000000|
      ≤ (2 : ℚ) ^ 63 := by
    rw [abs_div]
    have h9 : |(1000000000 : ℚ)| = 1000000000 := abs_of_pos (by norm_num)
    rw [h9, div_le_iff₀ (by norm_num)]
    have : (0 : ℚ) ≤ 2 ^ 63 := by positivity
    linarith
  have hq1 := abs_to_double_le_two_pow _ 63 hq
  calc |to_double ((wrap64 (t1.tv_sec - t0.tv_sec) : Int) : ℚ)
          + to_double (to_double ((wrap64 (t1.tv_nsec - t0.tv_nsec) : Int) : ℚ) / 1000000000)|
      ≤ |to_double ((wrap64 (t1.tv_sec - t0.tv_sec) : Int) : ℚ)|
          + |to_double (to_double ((wrap64 (t1.tv_nsec - t0.tv_nsec) : Int) : ℚ)
              / 1000000000)| := abs_add _ _
    _ ≤ (2 : ℚ) ^ 63 + 2 ^ 63 := add_le_add hA hq1
    _ = (2 : ℚ) ^ 64 := by norm_num

theorem abs_foldl_double_add_le (l : List ℚ) (hl : ∀ x ∈ l, |x| ≤ (2 : ℚ) ^ 64) :
    ∀ (k : Nat) (acc : ℚ), |acc| ≤ (2 : ℚ) ^ (64 + k) →
      |l.foldl double_add acc| ≤ (2 : ℚ) ^ (64 + k + l.length) := by
  induction l with
  | nil => intro k acc h; simpa using h
  | cons x rest ih =>
    intro k acc h
    rw [List.foldl_cons]
    have hx := hl x (List.mem_cons_self _ _)
    have hstep : |double_add acc x| ≤ (2 : ℚ) ^ (64 + (k + 1)) := by
      unfold double_add
      apply abs_to_double_le_two_pow
      have h64 : (2 : ℚ) ^ 64 ≤ 2 ^ (64 + k) := pow_le_pow_right₀ (by norm_num) (by omega)
      calc |acc + x| ≤ |acc| + |x| := abs_add _ _
        _ ≤ (2 : ℚ) ^ (64 + k) + 2 ^ (64 + k) := add_le_add h (le_trans hx h64)
        _ = (2 : ℚ) ^ (64 + (k + 1)) := by rw [← Nat.add_assoc, pow_succ]; ring
    have := ih (fun y hy => hl y (List.mem_cons_of_mem _ hy)) (k + 1) _ hstep
    rw [List.length_cons]
    rw [show 64 + k + (rest.length + 1) = 64 + (k + 1) + rest.length by omega]
    exact this

/-- No `double` that the timing and averaging code computes reaches `2^1024`,
where binary64 would round to infinity: every sample is at most `2^64`, every
partial sum and the value returned at most `2^84` in magnitude. -/
theorem doubles_stay_finite (clock : Nat → timespec) :
    (∀ x ∈ itertest.trial_samples clock, |x| ≤ (2 : ℚ) ^ 64) ∧
    (∀ n, |((itertest.trial_samples clock).take n).foldl double_add 0| ≤ (2 : ℚ) ^ 84) ∧
    |itertest.double_mean (itertest.trial_samples clock)| ≤ (2 : ℚ) ^ 84 := by
  have hs : ∀ x ∈ itertest.trial_samples clock, |x| ≤ (2 : ℚ) ^ 64 := by
    intro x hx
    unfold itertest.trial_samples at hx
    obtain ⟨t, _, rfl⟩ := List.mem_map.mp hx
    exact abs_diff_timespec_double_le _ _
  have hlen : (itertest.trial_samples clock).length = 20 := by
    simp [itertest.trial_samples, itertest.ITERS]
  have hpart : ∀ n, |((itertest.trial_samples clock).take n).foldl double_add 0|
      ≤ (2 : ℚ) ^ 84 := by
    intro n
    have h := abs_foldl_double_add_le ((itertest.trial_samples clock).take n)
      (fun x hx => hs x (List.mem_of_mem_take hx)) 0 0 (by simp)
    have hl : ((itertest.trial_samples clock).take n).length ≤ 20 := by
      rw [List.length_take, hlen]; omega
    exact le_trans h (pow_le_pow_right₀ (by norm_num) (by omega))
  refine ⟨hs, hpart, ?_⟩
  unfold itertest.double_mean double_div
  apply abs_to_double_le_two_pow
  have h := hpart 20
  rw [← hlen, List.take_length] at h
  rw [abs_div]
  have h20 : |(20 : ℚ)| = 20 := abs_of_pos (by norm_num)
  rw [h20, div_le_iff₀ (by norm_num)]
  have : (0 : ℚ) ≤ 2 ^ 84 := by positivity
  linarith

theorem is_chain_val (h : itertest.heap) :
    ∀ (l : List (Nat × Nat)) (head : Option Nat), itertest.is_chain h head l →
      ∀ p ∈ l, ∃ nd, h.nodes p.1 = some nd ∧ nd.val = some p.2 := by
  intro l
  induction l with
  | nil => intro _ _ p hp; cases hp
  | cons q rest ih =>
    intro head hc p hp
    obtain ⟨a, v⟩ := q
    obtain ⟨_, nd, hnd, hval, _, hrest⟩ := hc
    rcases List.mem_cons.mp hp with e | hp1
    · subst e
      exact ⟨nd, hnd, hval⟩
    · exact ih nd.next hrest p hp1

/-! ## Locality benchmark: the claims -/

/-- C1. For every size `N` and every sequence of `rand()` values, the build loop
of `doit_list` (pool of `POOLSIZE = 32` nodes, `N` prepend steps) completes, and
the chain from `head` ends in `NULL` after exactly `N` nodes, no node occurring
twice; the traversal loop, for whatever value it writes, terminates within `N`
iterations having visited exactly these nodes, each once; for `N = 0` the head is
`NULL`. -/
theorem doit_list_builds_exact_list (N : Nat) (rand : Nat → Nat) :
    ∃ s l, itertest.build rand N = some s ∧ itertest.POOLSIZE = 32 ∧
      (∀ fuel, N ≤ fuel → itertest.chain s.mem fuel s.head = some l) ∧
      l.length = N ∧ l.Nodup ∧
      (∀ i : Int, ∃ h1, itertest.list_fill i N s.head s.mem = some (h1, l)) ∧
      (N = 0 → s.head = none ∧ l = []) := by
  obtain ⟨s, l, hb, hinv, hl, h0⟩ := build_total rand N
  refine ⟨s, l.map Prod.fst, hb, rfl, ?_, by simp [hl], hinv.nodes_nodup, ?_, ?_⟩
  · intro fuel hf
    exact chain_of_is_chain s.mem l s.head fuel hinv.chain_ok (by omega)
  · intro i
    obtain ⟨h1, hrun, _⟩ := list_fill_of_is_chain i l s.head N s.mem hinv.chain_ok (by omega)
    exact ⟨h1, hrun⟩
  · intro e
    refine ⟨h0 e, ?_⟩
    have : l = [] := List.length_eq_zero.mp (by omega)
    rw [this]
    rfl

/-- C10. After pool initialisation and after each build step of `doit_list` (that
is, after `n` steps for every `n`), for every sequence of `rand()` values: the
pool has `POOLSIZE = 32` slots, each holding an allocated node whose fields are
still `NULL`; the nodes in the pool are pairwise distinct and none of them is a
node of the list built so far; the index `rand() % POOLSIZE` chosen next is below
32, and the node the next step prepends is the pool node at that index, which is
not in the list. -/
theorem pool_invariant (rand : Nat → Nat) (n : Nat) :
    ∃ s l, itertest.build rand n = some s ∧
      itertest.chain s.mem n s.head = some l ∧ l.length = n ∧
      s.node_pool.length = itertest.POOLSIZE ∧ itertest.POOLSIZE = 32 ∧
      rand n % itertest.POOLSIZE < 32 ∧
      s.node_pool.Nodup ∧
      (∀ p ∈ s.node_pool, s.mem.nodes p = some ⟨none, none⟩ ∧ p ∉ l) ∧
      (∃ c s1, s.node_pool[rand n % itertest.POOLSIZE]? = some c ∧ c ∉ l ∧
        itertest.build rand (n + 1) = some s1 ∧ s1.head = some c ∧
        itertest.chain s1.mem (n + 1) s1.head = some (c :: l)) := by
  obtain ⟨s, l, hb, hinv, hl, _⟩ := build_total rand n
  obtain ⟨s1, c, hget, hstep, hhead, hinv1⟩ := build_step_inv (rand n) s l hinv
  have hcm : c ∈ s.node_pool := List.getElem?_mem hget
  refine ⟨s, l.map Prod.fst, hb, ?_, by simp [hl], hinv.pool_length, rfl, ?_, hinv.pool_nodup,
    ?_, c, s1, hget, hinv.pool_not_in_list c hcm, ?_, hhead, ?_⟩
  · exact chain_of_is_chain s.mem l s.head n hinv.chain_ok (by omega)
  · exact Nat.mod_lt _ (by decide)
  · intro p hp
    exact ⟨hinv.pool_fresh p hp, hinv.pool_not_in_list p hp⟩
  · simp only [itertest.build, hb, Option.some_bind]
    exact hstep
  · have := chain_of_is_chain s1.mem _ s1.head (n + 1) hinv1.chain_ok (by simp [hl])
    rw [this]
    rfl

/-- C3. For two timestamps whose subtractions are defined in `long` arithmetic,
`diff_timespec(t1, t0)` is `(t1.tv_sec - t0.tv_sec) + (t1.tv_nsec - t0.tv_nsec) / 10^9`
in exact rational arithmetic; the copy in `utils.c` computes the same value as the
copy in `itertest.c`, on every input. -/
theorem diff_timespec_formula (t1 t0 : timespec) (hd : diff_defined t1 t0) :
    itertest.diff_timespec t1 t0
      = ((t1.tv_sec : ℚ) - (t0.tv_sec : ℚ))
        + ((t1.tv_nsec : ℚ) - (t0.tv_nsec : ℚ)) / 1000000000 ∧
    utils.diff_timespec t1 t0 = itertest.diff_timespec t1 t0 ∧
    (∀ a b : timespec, utils.diff_timespec a b = itertest.diff_timespec a b) := by
  refine ⟨?_, rfl, fun _ _ => rfl⟩
  rw [diff_timespec_exact t1 t0 hd]
  push_cast
  rfl

theorem diff_timespec_formula_witness :
    itertest.diff_timespec ⟨12, 250000000⟩ ⟨10, 750000000⟩
      = (((12 : Int) : ℚ) - ((10 : Int) : ℚ))
        + (((250000000 : Int) : ℚ) - ((750000000 : Int) : ℚ)) / 1000000000 ∧
    utils.diff_timespec ⟨12, 250000000⟩ ⟨10, 750000000⟩
      = itertest.diff_timespec ⟨12, 250000000⟩ ⟨10, 750000000⟩ ∧
    (∀ a b : timespec, utils.diff_timespec a b = itertest.diff_timespec a b) :=
  diff_timespec_formula ⟨12, 250000000⟩ ⟨10, 750000000⟩ (by decide)

/-- C4, refuted as stated: with a clock on which trial `t` starts at `2t + 0.9` s
and ends at `2t + 1` s, each of the 20 samples recorded is the `double`
`900719925474099 / 2^53` (the result of `1 + (-0.9)`), and `doit_array` and
`doit_list` return `7205759403792795 / 2^56`, which is not the arithmetic mean of
the 20 samples (the mean is the sample itself). -/
theorem doit_mean_not_exact :
    itertest.trial_samples (fun k => ⟨k, (1 - k % 2) * 900000000⟩)
      = List.replicate 20 (900719925474099 / 9007199254740992) ∧
    itertest.doit_array 1 (fun k => ⟨k, (1 - k % 2) * 900000000⟩)
      = some (7205759403792795 / 72057594037927936) ∧
    itertest.doit_list 1 (fun _ => 0) (fun k => ⟨k, (1 - k % 2) * 900000000⟩)
      = some (7205759403792795 / 72057594037927936) ∧
    (7205759403792795 / 72057594037927936 : ℚ)
      ≠ (itertest.trial_samples (fun k => ⟨k, (1 - k % 2) * 900000000⟩)).sum / 20 := by
  have hs : itertest.trial_samples (fun k => ⟨k, (1 - k % 2) * 900000000⟩)
      = List.replicate 20 (900719925474099 / 9007199254740992) := by decide!
  have hm : itertest.double_mean (List.replicate 20 (900719925474099 / 9007199254740992))
      = 7205759403792795 / 72057594037927936 := by decide!
  refine ⟨hs, ?_, ?_, ?_⟩
  · obtain ⟨_, _, _, h⟩ := doit_array_spec 1 (fun k => ⟨k, (1 - k % 2) * 900000000⟩)
      (by decide)
    rw [h, hs, hm]
  · obtain ⟨_, _, _, _, _, h⟩ := doit_list_spec 1 (fun _ => 0)
      (fun k => ⟨k, (1 - k % 2) * 900000000⟩)
    rw [h, hs, hm]
  · rw [hs]
    decide!

/-- C4, amended. For every size, every sequence of `rand()` values and every
sequence of clock readings, each of the `ITERS = 20` trials of `doit_list`, and of
`doit_array` when the byte count `size * sizeof(int)` fits `size_t`, records
exactly one sample, so that `results` holds the 20 samples in trial order, and the
value returned is the `double` obtained by adding the 20 samples to `0.0` from left
to right, each addition rounded to the nearest `double`, and dividing the sum by
20, rounded again. -/
theorem doit_returns_double_mean (size : Nat) (rand : Nat → Nat) (clock : Nat → timespec) :
    (itertest.trial_samples clock).length = 20 ∧
    (size * sizeof_int < 2 ^ 64 →
      (∃ s, itertest.array_trials size clock itertest.ITERS = some s ∧
        s.results = itertest.trial_samples clock) ∧
      itertest.doit_array size clock
        = some (double_div ((itertest.trial_samples clock).foldl double_add 0) 20)) ∧
    (∃ s r, itertest.build rand size = some s ∧
      itertest.list_trials size s.head clock s.mem itertest.ITERS = some r ∧
      r.results = itertest.trial_samples clock) ∧
    itertest.doit_list size rand clock
      = some (double_div ((itertest.trial_samples clock).foldl double_add 0) 20) := by
  obtain ⟨s, r, hb, hrun, hres, hv⟩ := doit_list_spec size rand clock
  refine ⟨?_, ?_, ⟨s, r, hb, hrun, hres⟩, hv⟩
  · simp [itertest.trial_samples, itertest.ITERS]
  · intro hfit
    obtain ⟨sa, ha, hra, hav⟩ := doit_array_spec size clock hfit
    exact ⟨⟨sa, ha, hra⟩, hav⟩

theorem doit_returns_double_mean_witness :
    (itertest.trial_samples (fun k => ⟨k / 2, (k % 2) * 100000000⟩)).length = 20 ∧
    ((∃ s, itertest.array_trials 3 (fun k => ⟨k / 2, (k % 2) * 100000000⟩) itertest.ITERS
          = some s ∧
        s.results = itertest.trial_samples (fun k => ⟨k / 2, (k % 2) * 100000000⟩)) ∧
      itertest.doit_array 3 (fun k => ⟨k / 2, (k % 2) * 100000000⟩)
        = some (double_div ((itertest.trial_samples
            (fun k => ⟨k / 2, (k % 2) * 100000000⟩)).foldl double_add 0) 20)) ∧
    (∃ s r, itertest.build (fun k => 7 * k + 3) 3 = some s ∧
      itertest.list_trials 3 s.head (fun k => ⟨k / 2, (k % 2) * 100000000⟩) s.mem
        itertest.ITERS = some r ∧
      r.results = itertest.trial_samples (fun k => ⟨k / 2, (k % 2) * 100000000⟩)) ∧
    itertest.doit_list 3 (fun k => 7 * k + 3) (fun k => ⟨k / 2, (k % 2) * 100000000⟩)
      = some (double_div ((itertest.trial_samples
          (fun k => ⟨k / 2, (k % 2) * 100000000⟩)).foldl double_add 0) 20) :=
  ⟨(doit_returns_double_mean 3 (fun k => 7 * k + 3)
      (fun k => ⟨k / 2, (k % 2) * 100000000⟩)).1,
    (doit_returns_double_mean 3 (fun k => 7 * k + 3)
      (fun k => ⟨k / 2, (k % 2) * 100000000⟩)).2.1 (by decide),
    (doit_returns_double_mean 3 (fun k => 7 * k + 3)
      (fun k => ⟨k / 2, (k % 2) * 100000000⟩)).2.2⟩

/-- C8. For every size `N ≥ 1`: if in each of the 20 trials the end timestamp is
not earlier than the start timestamp, both nanosecond fields lie in `[0, 10^9)`
and the subtraction of the seconds is defined, then every average that
`doit_array` returns is non-negative, and it does return one when the byte count
`N * sizeof(int)` fits `size_t`; `doit_list` returns a non-negative average; and
every single `diff_timespec(end, begin)` is non-negative, as a `double` and in
exact arithmetic. -/
theorem doit_average_nonneg (N : Nat) (rand : Nat → Nat) (clock : Nat → timespec)
    (hN : 1 ≤ N)
    (hclock : ∀ t, t < itertest.ITERS →
      diff_defined (clock (2 * t + 1)) (clock (2 * t)) ∧
      (clock (2 * t)).nsec_ok ∧ (clock (2 * t + 1)).nsec_ok ∧
      (clock (2 * t + 1)).not_before (clock (2 * t))) :
    (∀ v, itertest.doit_array N clock = some v → 0 ≤ v) ∧
    (N * sizeof_int < 2 ^ 64 → ∃ v, itertest.doit_array N clock = some v ∧ 0 ≤ v) ∧
    (∃ v, itertest.doit_list N rand clock = some v ∧ 0 ≤ v) ∧
    (∀ t, t < itertest.ITERS →
      0 ≤ itertest.diff_timespec_double (clock (2 * t + 1)) (clock (2 * t)) ∧
      0 ≤ itertest.diff_timespec (clock (2 * t + 1)) (clock (2 * t))) := by
  have _ := hN
  have hnn := trial_samples_nonneg clock hclock
  have hret : N * sizeof_int < 2 ^ 64 →
      ∃ v, itertest.doit_array N clock = some v ∧ 0 ≤ v := by
    intro hfit
    obtain ⟨_, _, _, h⟩ := doit_array_spec N clock hfit
    exact ⟨_, h, hnn⟩
  refine ⟨?_, hret, ?_, ?_⟩
  · intro v hv
    rcases Nat.lt_or_ge (N * sizeof_int) (2 ^ 64) with hfit | hov
    · obtain ⟨w, hw, hw0⟩ := hret hfit
      rw [hw] at hv
      cases hv
      exact hw0
    · rw [doit_array_none_of_overflow N clock hov] at hv
      cases hv
  · obtain ⟨_, _, _, _, _, h⟩ := doit_list_spec N rand clock
    exact ⟨_, h, hnn⟩
  · intro t ht
    obtain ⟨hd, h0, h1, hle⟩ := hclock t ht
    exact ⟨diff_timespec_double_nonneg _ _ hd h1 h0 hle,
      diff_timespec_nonneg _ _ hd h1 h0 hle⟩

theorem doit_average_nonneg_witness :
    (∀ v, itertest.doit_array 3 (fun k => ⟨k, (1 - k % 2) * 900000000⟩) = some v → 0 ≤ v) ∧
    (∃ v, itertest.doit_array 3 (fun k => ⟨k, (1 - k % 2) * 900000000⟩) = some v ∧ 0 ≤ v) ∧
    (∃ v, itertest.doit_list 3 (fun k => 7 * k + 3)
        (fun k => ⟨k, (1 - k % 2) * 900000000⟩) = some v ∧ 0 ≤ v) ∧
    (∀ t, t < itertest.ITERS →
      0 ≤ itertest.diff_timespec_double
        ((fun k : Nat => (⟨k, (1 - k % 2) * 900000000⟩ : timespec)) (2 * t + 1))
        ((fun k : Nat => (⟨k, (1 - k % 2) * 900000000⟩ : timespec)) (2 * t)) ∧
      0 ≤ itertest.diff_timespec
        ((fun k : Nat => (⟨k, (1 - k % 2) * 900000000⟩ : timespec)) (2 * t + 1))
        ((fun k : Nat => (⟨k, (1 - k % 2) * 900000000⟩ : timespec)) (2 * t))) :=
  ⟨(doit_average_nonneg 3 (fun k => 7 * k + 3)
      (fun k => ⟨k, (1 - k % 2) * 900000000⟩) (by decide) (by decide)).1,
    (doit_average_nonneg 3 (fun k => 7 * k + 3)
      (fun k => ⟨k, (1 - k % 2) * 900000000⟩) (by decide) (by decide)).2.1 (by decide),
    (doit_average_nonneg 3 (fun k => 7 * k + 3)
      (fun k => ⟨k, (1 - k % 2) * 900000000⟩) (by decide) (by decide)).2.2⟩

/-- For every size `N` whose byte count fits `size_t` and every trial index
`t < 20`, after trial `t`: in `doit_array` the array still has `N` cells and each
holds `t`; in `doit_list`, for every `N`, the nodes and their links are those of
the list as built, and the `int` owned by each node of the chain holds `t`. -/
theorem trial_writes_index_of_fits (N : Nat) (rand : Nat → Nat) (clock : Nat → timespec)
    (t : Nat) (ht : t < itertest.ITERS) :
    (N * sizeof_int < 2 ^ 64 →
      ∃ s, itertest.array_trials N clock (t + 1) = some s ∧
        s.a = List.replicate N (t : Int)) ∧
    ∃ s l r, itertest.build rand N = some s ∧
      itertest.chain s.mem N s.head = some l ∧ l.length = N ∧
      itertest.list_trials N s.head clock s.mem (t + 1) = some r ∧
      r.mem.nodes = s.mem.nodes ∧
      itertest.chain r.mem N s.head = some l ∧
      (∀ a ∈ l, ∃ nd v, r.mem.nodes a = some nd ∧ nd.val = some v ∧
        r.mem.ints v = some (t : Int)) := by
  constructor
  · intro hfit
    obtain ⟨s, hrun, _, _, _, ha⟩ := array_trials_spec N clock hfit (t + 1) ht
    refine ⟨s, hrun, ?_⟩
    have e : ((t + 1 : Nat) : Int) - 1 = (t : Int) := by push_cast; ring
    rw [ha (by omega), e]
  · obtain ⟨s, l, hb, hinv, hl, _⟩ := build_total rand N
    obtain ⟨r, hrun, hnodes, _, hch, _, _, hin, _⟩ :=
      list_trials_spec N s.head clock s.mem l hinv.chain_ok (by omega) (t + 1) ht
    refine ⟨s, l.map Prod.fst, r, hb, ?_, by simp [hl], hrun, hnodes, ?_, ?_⟩
    · exact chain_of_is_chain s.mem l s.head N hinv.chain_ok (by omega)
    · exact chain_of_is_chain r.mem l s.head N hch (by omega)
    · intro a ha
      obtain ⟨q, hq, rfl⟩ := List.mem_map.mp ha
      obtain ⟨nd, hnd, hval⟩ := is_chain_val r.mem l s.head hch q hq
      refine ⟨nd, q.2, hnd, hval, ?_⟩
      have e : ((t + 1 : Nat) : Int) - 1 = (t : Int) := by push_cast; ring
      rw [hin (by omega) q.2 (List.mem_map_of_mem Prod.snd hq), e]

/-- C9, at size `N = 2^62`: the byte count `N * sizeof(int)` is `2^64`, which is 0
in `size_t`, so `XMALLOC` hands out a block of no cell; the first write `a[0] = 0`
of trial 0 is outside the block, no trial completes, and `doit_array` and `main`
do not return. -/
theorem array_trial_faults_at_overflow :
    (4611686018427387904 : Nat) = 2 ^ 62 ∧
    (4611686018427387904 * sizeof_int) % 2 ^ 64 = 0 ∧
    itertest.array_cells 4611686018427387904 = 0 ∧
    itertest.array_trials 4611686018427387904 (fun k => ⟨k, 0⟩) 1 = none ∧
    itertest.doit_array 4611686018427387904 (fun k => ⟨k, 0⟩) = none ∧
    itertest.main ["itertest", "4611686018427387904", "array"] (fun _ => 0)
      (fun k => ⟨k, 0⟩) = none := by
  have hov : 2 ^ 64 ≤ 4611686018427387904 * sizeof_int := by decide
  have hd := doit_array_none_of_overflow 4611686018427387904 (fun k => ⟨k, 0⟩) hov
  refine ⟨by decide, by decide, by decide, ?_, hd, ?_⟩
  · exact array_trials_fault _ _ (array_cells_of_overflow _ hov) 0
  · have hs : itertest.strtoll "4611686018427387904".toList = (4611686018427387904, []) := by
      decide!
    unfold itertest.main
    rw [if_neg (by decide)]
    simp only [List.getD_cons_succ, List.getD_cons_zero, hs]
    rw [if_neg (by decide), if_pos (by decide)]
    have hz : ((4611686018427387904 : Int) % 2 ^ 64).toNat = 4611686018427387904 := by decide
    rw [hz, hd]
    rfl

/-! ## Command line of `itertest` -/

theorem main_wrong_argc (argv : List String) (rand : Nat → Nat) (clock : Nat → timespec)
    (h : argv.length ≠ 3) :
    itertest.main argv rand clock = some ⟨1, [itertest.output.usage_line]⟩ := by
  unfold itertest.main
  rw [if_pos h]

theorem main_trailing_characters (a0 a1 a2 : String) (rand : Nat → Nat)
    (clock : Nat → timespec) (h : (itertest.strtoll a1.toList).2 ≠ []) :
    itertest.main [a0, a1, a2] rand clock
      = some ⟨1, [itertest.output.invalid_count a1, itertest.output.usage_line]⟩ := by
  unfold itertest.main
  rw [if_neg (by simp)]
  simp only [List.getD_cons_succ, List.getD_cons_zero]
  rw [if_pos h]

theorem main_unknown_mode (a0 a1 a2 : String) (rand : Nat → Nat)
    (clock : Nat → timespec) (h : (itertest.strtoll a1.toList).2 = [])
    (harray : a2 ≠ "array") (hlist : a2 ≠ "list") :
    itertest.main [a0, a1, a2] rand clock = some ⟨1, [itertest.output.usage_line]⟩ := by
  unfold itertest.main
  rw [if_neg (by simp)]
  simp only [List.getD_cons_succ, List.getD_cons_zero]
  rw [if_neg (by simpa using h), if_neg harray, if_neg hlist]

theorem strtoll_empty : itertest.strtoll "".toList = (0, []) := by
  decide

/-- C7, at the argument vector `itertest "" list`: the iteration-count argument is
the empty string, which is not a number, yet `strtoll` leaves `err` at the
terminating zero, the test `*err` does not fire, and `main` runs the list
benchmark for 0 elements, prints the result line and returns 0. -/
theorem main_accepts_empty_count :
    itertest.main ["itertest", "", "list"] (fun _ => 0) (fun k => ⟨k, 0⟩)
      = some ⟨0, [itertest.output.result_line "list" 0 1]⟩ := by
  unfold itertest.main
  rw [if_neg (by decide)]
  simp only [List.getD_cons_succ, List.getD_cons_zero, strtoll_empty]
  rw [if_neg (by decide), if_neg (by decide), if_pos True.intro]
  have hz : ((0 : Int) % 2 ^ 64).toNat = 0 := by decide
  rw [hz, (doit_list_spec 0 _ _).choose_spec.choose_spec.2.2.2]
  have hs : itertest.double_mean (itertest.trial_samples (fun k => (⟨k, 0⟩ : timespec)))
      = 1 := by decide!
  rw [hs]
  rfl

end MacewanCache
